import Mathlib

/-!
# Verification of the kurt cross-format object model and plugin registry

This development embeds the two source modules of the repository:

* `kurt/scratch14/user_objects.py` — the generic schema-driven record type
  (`UserObject`): dynamic field storage with positional/named duality,
  synthetic `undefined-%i` names for extra fields, ordered encoding
  (`ordered_fields`, `field_values`, `to_construct`, `from_construct`).

* `kurt/plugin.py` — the format registry (`Kurt.register`, `Kurt.get_plugin`),
  the capability table (`Feature`) and the two concrete degrade transforms
  (the "Vector Images" and "Stage-specific Variables" workarounds).

Python dictionaries are modelled as insertion-ordered association lists with
unique keys: updating an existing key replaces its value in place (keeping its
position), updating a fresh key appends it at the end, and deletion removes
the entry.  Python generators are modelled by an explicit run trace
(`GenRun`): the list of (state visible when a label is delivered, label)
pairs together with the state after exhaustion.
-/

set_option maxHeartbeats 1000000

deriving instance DecidableEq for Except

namespace Kurt

/-- A generic Python value.  `none` is Python's `None`; record fields are not
interpreted further by the code under study, so a small closed universe of
atoms suffices and all claims are quantified over lists of such values. -/
inductive PyVal where
  | none
  | int (n : Int)
  | str (s : String)
  deriving DecidableEq, Repr

/-- A Python `dict` with `String` keys: insertion-ordered association list
with unique keys. -/
abbrev Store := List (String × PyVal)

/-- `d[k]` lookup (first occurrence). -/
def dictGet? : Store → String → Option PyVal
  | [], _ => Option.none
  | (k', v) :: d, k => if k' = k then some v else dictGet? d k

/-- `d[k] = v`: replace the value at `k` in place if present (keeping the
key's position), otherwise append the new entry at the end — Python dict
update semantics. -/
def dictUpdate : Store → String → PyVal → Store
  | [], k, v => [(k, v)]
  | (k', v') :: d, k, v =>
    if k' = k then (k', v) :: d else (k', v') :: dictUpdate d k v

/-- `d.update(kvs)`: apply the updates left to right. -/
def dictUpdates (d : Store) (kvs : List (String × PyVal)) : Store :=
  kvs.foldl (fun d p => dictUpdate d p.1 p.2) d

/-- `del d[k]` (removes the entry with key `k`). -/
def dictDelete : Store → String → Store
  | [], _ => []
  | (k', v') :: d, k => if k' = k then d else (k', v') :: dictDelete d k

/-- `d.pop(k)`: return the value and the store without the entry, or fail. -/
def dictPop (d : Store) (k : String) : Option (PyVal × Store) :=
  match dictGet? d k with
  | some v => some (v, dictDelete d k)
  | Option.none => Option.none

/-- The key list of a store. -/
def keys (d : Store) : List String := d.map Prod.fst

/-! ## Decimal printing and parsing

Embeddings of Python's `"%i" % i` formatting and of `int(s)` (optional sign,
decimal digits), used by the synthetic `"undefined-%i"` field names and by
`ordered_fields`' suffix parsing. -/
/-- The character for a decimal digit `d < 10`. -/
def digitToChar (d : Nat) : Char := Char.ofNat (48 + d)

/-- The value of a decimal digit character, if it is one. -/
def charToDigit? (c : Char) : Option Nat :=
  if 48 ≤ c.toNat ∧ c.toNat ≤ 57 then some (c.toNat - 48) else Option.none

/-- Big-endian decimal digits of `n` (empty for `0`), with explicit fuel so
that the recursion is structural. -/
def natDigitsAux : Nat → Nat → List Char
  | 0, _ => []
  | _, 0 => []
  | fuel + 1, n => natDigitsAux fuel (n / 10) ++ [digitToChar (n % 10)]

/-- Decimal representation of `n`, as Python's `"%i" % n` produces it. -/
def natDigits (n : Nat) : List Char :=
  if n = 0 then ['0'] else natDigitsAux n n

/-- Parse an unsigned run of decimal digits (the core of Python's `int`);
fails on the empty string or any non-digit. -/
def parseNatChars (cs : List Char) : Option Nat :=
  match cs with
  | [] => Option.none
  | _ => cs.foldlM (fun acc c => (charToDigit? c).map (fun d => 10 * acc + d)) 0

/-- Embedding of Python's `int(s)`: optional sign then decimal digits. -/
def pyInt? (cs : List Char) : Option Int :=
  match cs with
  | [] => Option.none
  | c :: rest =>
    if c = '-' then (parseNatChars rest).map (fun n => -(n : Int))
    else if c = '+' then (parseNatChars rest).map (fun n => (n : Int))
    else (parseNatChars (c :: rest)).map (fun n => (n : Int))

/-! ## `str.split('-')` -/
/-- Embedding of Python's `s.split('-')`. -/
def splitDash : List Char → List (List Char)
  | [] => [[]]
  | c :: rest =>
    if c = '-' then [] :: splitDash rest
    else
      match splitDash rest with
      | [] => [[c]]
      | g :: gs => (c :: g) :: gs

/-! ## The generic record type (`kurt/scratch14/user_objects.py`) -/
/-- The characters of the literal `"undefined-"`. -/
def undefPrefix : List Char := ['u', 'n', 'd', 'e', 'f', 'i', 'n', 'e', 'd', '-']

/-- The synthetic name `"undefined-%i" % i` given to the `i`-th extra field. -/
def undefinedName (i : Nat) : String := String.mk (undefPrefix ++ natDigits i)

/-- `int(field.split('-')[1])` from `ordered_fields`: the integer suffix of a
synthetic extra-field name, if it parses. -/
def parseSuffix (f : String) : Option Int :=
  match (splitDash f.data).get? 1 with
  | some g => pyInt? g
  | Option.none => Option.none

/-- A record schema: the class tag (Python class name used as `classID` in
`to_construct`), the ordered declared field names (`_fields`, already the
linear concatenation of the inheritance chain) and the declared version
(`_version`). -/
structure Schema where
  className : String
  fields : List String
  version : PyVal
  deriving DecidableEq, Repr

/-- A `UserObject` instance: its schema, the record-field store
(`self.fields`), the ordinary instance attributes living outside the
record-field namespace, and the current version. -/
structure UserObject where
  schema : Schema
  fields : Store
  attrs : Store
  version : PyVal
  deriving DecidableEq, Repr

namespace UserObject

/-- `__setattr__`: a name declared in `_fields` is stored into the field
store, any other name becomes an ordinary instance attribute. -/
def setattr (o : UserObject) (k : String) (v : PyVal) : UserObject :=
  if k ∈ o.schema.fields then { o with fields := dictUpdate o.fields k v }
  else { o with attrs := dictUpdate o.attrs k v }

/-- `__getattr__` combined with normal attribute lookup: instance attributes
shadow record fields; an unknown name is an `AttributeError`. -/
def getattr (o : UserObject) (k : String) : Except String PyVal :=
  match dictGet? o.attrs k with
  | some v => Except.ok v
  | Option.none =>
    match dictGet? o.fields k with
    | some v => Except.ok v
    | Option.none => Except.error ("AttributeError: " ++ k)

/-- `self.fields = dict(zip(self._fields, [None] * len(self._fields)))`. -/
def initFields0 (sch : Schema) : Store :=
  sch.fields.foldl (fun d f => dictUpdate d f PyVal.none) []

/-- Run `set_defaults`: the embedding represents a subclass's hook as the
list of `self.name = value` assignments it performs, each going through
`__setattr__`. -/
def applySetattrs (o : UserObject) (defaults : List (String × PyVal)) : UserObject :=
  defaults.foldl (fun o p => o.setattr p.1 p.2) o

/-- The names `self._fields` padded with synthetic `undefined-%i` names up to
the raw value count. -/
def definedFields (sch : Schema) (n : Nat) : List String :=
  sch.fields ++ (List.range' sch.fields.length (n - sch.fields.length)).map undefinedName

/-- The `if field_values:` block of `__init__`: zip the padded name list with
the raw values and update the field store (skipped when `field_values` is
`None` or empty, since both are falsy). -/
def applyRawValues (o : UserObject) : Option (List PyVal) → UserObject
  | some (v :: vs) =>
    let fvs := v :: vs
    { o with fields := dictUpdates o.fields ((definedFields o.schema fvs.length).zip fvs) }
  | _ => o

/-- The final `if "name" in self.fields:` block of `__init__`: delete the
entry and re-assign it through `__setattr__`. -/
def nameFix (o : UserObject) : UserObject :=
  match dictGet? o.fields "name" with
  | some n => setattr { o with fields := dictDelete o.fields "name" } "name" n
  | Option.none => o

/-- `__init__(field_values=None, **args)`.  The `version` keyword is popped
from `args` before the field store is touched, so it is modelled as the
separate parameter `version?`; `args` holds the remaining keyword
arguments in order. -/
def init (sch : Schema) (defaults : List (String × PyVal))
    (field_values? : Option (List PyVal)) (args : List (String × PyVal))
    (version? : Option PyVal) : UserObject :=
  let o0 : UserObject :=
    { schema := sch, fields := initFields0 sch, attrs := [],
      version := version?.getD sch.version }
  let o1 := applySetattrs o0 defaults
  let o2 := applyRawValues o1 field_values?
  let o3 := { o2 with fields := dictUpdates o2.fields args }
  nameFix o3

/-- The declared-fields pass of `ordered_fields`: walk `_fields`, looking
each name up in the original store and popping it from the copy; a name
checked present but missing from the copy is a `KeyError`. -/
def popLoop (orig : Store) : List String → Store →
    Except String (List (String × PyVal) × Store)
  | [], copy => Except.ok ([], copy)
  | f :: fs, copy =>
    if (dictGet? orig f).isSome then
      match dictPop copy f with
      | some (v, copy') =>
        match popLoop orig fs copy' with
        | Except.ok (rest, left) => Except.ok ((f, v) :: rest, left)
        | Except.error e => Except.error e
      | Option.none => Except.error ("KeyError: " ++ f)
    else
      match popLoop orig fs copy with
      | Except.ok (rest, left) => Except.ok ((f, PyVal.none) :: rest, left)
      | Except.error e => Except.error e

/-- The `ordered_fields` property: declared fields in schema order, then the
leftover extra fields sorted by the integer suffix of their synthetic name
(Python's `sorted` is stable, embedded as insertion sort on `≤` of the
pre-computed keys); an unparsable extra name is the malformed-name error. -/
def sortKey (p : String × PyVal) : Except String (Int × (String × PyVal)) :=
  match parseSuffix p.1 with
  | some i => Except.ok (i, p)
  | Option.none => Except.error ("ValueError: invalid field name " ++ p.1)

/-- Compute the sort key of every leftover entry, left to right; the first
unparsable name raises (as Python's `sorted` key function would). -/
def mapSortKeys : List (String × PyVal) →
    Except String (List (Int × (String × PyVal)))
  | [] => Except.ok []
  | p :: rest =>
    match sortKey p with
    | Except.error e => Except.error e
    | Except.ok k =>
      match mapSortKeys rest with
      | Except.error e => Except.error e
      | Except.ok ks => Except.ok (k :: ks)

def ordered_fields (o : UserObject) : Except String (List (String × PyVal)) :=
  match popLoop o.fields o.schema.fields o.fields with
  | Except.error e => Except.error e
  | Except.ok (declared, leftover) =>
    match mapSortKeys leftover with
    | Except.error e => Except.error e
    | Except.ok keyed =>
      Except.ok (declared ++ (keyed.insertionSort (fun a b => a.1 ≤ b.1)).map Prod.snd)

/-- The `field_values` property. -/
def field_values (o : UserObject) : Except String (List PyVal) :=
  (o.ordered_fields).map (List.map Prod.snd)

/-- The wire container produced by `to_construct`. -/
structure Container where
  classID : String
  field_values : List PyVal
  length : Nat
  version : PyVal
  deriving DecidableEq, Repr

/-- `to_construct(context)`: apply the per-field encode hook to the values in
declared positions and package the container.  `encode` is the
`_encode_field` hook; the default hook is the identity. -/
def to_construct (o : UserObject) (encode : String → PyVal → PyVal) :
    Except String Container :=
  match o.field_values with
  | Except.error e => Except.error e
  | Except.ok fvs =>
    let fvs' := fvs.enum.map (fun p =>
      match o.schema.fields.get? p.1 with
      | some f => encode f p.2
      | Option.none => p.2)
    Except.ok
      { classID := o.schema.className, field_values := fvs',
        length := fvs'.length, version := o.version }

/-- `from_construct(obj, context) = cls(obj.field_values, version=obj.version)`:
raw construction from the wire container. -/
def from_construct (sch : Schema) (defaults : List (String × PyVal))
    (c : Container) : UserObject :=
  init sch defaults (some c.field_values) [] (some c.version)

/-- `built()`: apply the per-field decode hook to every declared field
present in the store (runs after full construction; unused by the claims but
part of the record contract). -/
def built (o : UserObject) (decode : String → PyVal → PyVal) : UserObject :=
  { o with fields := o.schema.fields.foldl (fun d f =>
      match dictGet? d f with
      | some v => dictUpdate d f (decode f v)
      | Option.none => d) o.fields }

end UserObject

/-! ## The format registry (`kurt/plugin.py`) -/
/-- Modelled from the spec: `kurt.TranslatedBlockType` (kurt core, not under
`src/`) — a per-format block definition with its command text and optional
match-hint (source attribute `_match`); `format` is stamped by
`Kurt.register`. -/
structure TranslatedBlockType where
  format : Option String
  command : String
  matchHint : Option String
  deriving DecidableEq, Repr

/-- Modelled from the spec: `kurt.BlockType` (kurt core, not under `src/`) —
a canonical cross-format command identity holding a mapping from format name
to that format's translation. -/
structure BlockType where
  translations : List (String × TranslatedBlockType)
  deriving DecidableEq, Repr

/-- Modelled from the spec: `BlockType.has_command` — whether the given token
is among the commands of this block's translations. -/
def BlockType.has_command (bt : BlockType) (c : String) : Bool :=
  bt.translations.any (fun t => t.2.command == c)

/-- `bt.has_command(tbt._match)` with a possibly absent hint: `None` matches
no command. -/
def BlockType.has_command? (bt : BlockType) : Option String → Bool
  | some c => bt.has_command c
  | Option.none => false

/-- Insertion-ordered update of a translation table (Python dict semantics,
as for `Store`). -/
def addTranslation : List (String × TranslatedBlockType) → String →
    TranslatedBlockType → List (String × TranslatedBlockType)
  | [], fmt, t => [(fmt, t)]
  | (f, t') :: rest, fmt, t =>
    if f = fmt then (f, t) :: rest else (f, t') :: addTranslation rest fmt t

/-- Modelled from the spec: `BlockType._add_translation`. -/
def BlockType.add_translation (bt : BlockType) (fmt : String)
    (t : TranslatedBlockType) : BlockType :=
  { translations := addTranslation bt.translations fmt t }

/-- Modelled from the spec: `kurt.BlockType(tbt)` — a new canonical Block
created from a single format's definition. -/
def BlockType.ofTBT (t : TranslatedBlockType) : BlockType :=
  { translations := [(t.format.getD "", t)] }

/-- `KurtPlugin`: name, display name, extension, declared capability names
and the ordered block-definition list (absent slots are `none`). -/
structure KurtPlugin where
  name : String
  display_name : String
  extension : String
  features : List String
  blocks : List (Option TranslatedBlockType)
  deriving DecidableEq, Repr

/-- A capability (`Feature`): name and description. -/
structure Feature where
  name : String
  description : String
  deriving DecidableEq, Repr

/-- The process-wide capability table `Feature.FEATURES`, as populated by the
three `Feature(...)` declarations in `plugin.py`. -/
def Feature.FEATURES : List (String × Feature) :=
  [("Vector Images",
    ⟨"Vector Images", "Allow vector format (SVG) image files for costumes."⟩),
   ("Stage-specific Variables",
    ⟨"Stage-specific Variables",
      "Can have stage-specific variables and lists, in addition to global variables and lists."⟩),
   ("Custom Blocks",
    ⟨"Custom Blocks", "Blocks accept CustomBlockType objects for their type."⟩)]

/-- `Feature.get` restricted to name strings: a lookup in `FEATURES` that
fails (Python `KeyError`) on an unknown name. -/
def Feature.get? (name : String) : Option Feature :=
  (Feature.FEATURES.find? (fun p => p.1 == name)).map Prod.snd

/-- The registry's process-wide state: `Kurt.plugins` (an `OrderedDict`) and
the canonical block catalog `Kurt.blocks`. -/
structure KurtState where
  plugins : List (String × KurtPlugin)
  blocks : List BlockType
  deriving DecidableEq, Repr

def emptyState : KurtState := { plugins := [], blocks := [] }

/-- `OrderedDict` assignment `cls.plugins[plugin.name] = plugin`. -/
def pluginsUpdate : List (String × KurtPlugin) → String → KurtPlugin →
    List (String × KurtPlugin)
  | [], k, v => [(k, v)]
  | (k', v') :: d, k, v =>
    if k' = k then (k', v) :: d else (k', v') :: pluginsUpdate d k v

/-- The inner `for bt in cls.blocks: if bt.has_command(...): ...` scan: attach
the translation to the first matching canonical block, or report no match. -/
def attachFirst : List BlockType → String → TranslatedBlockType →
    Option (List BlockType)
  | [], _, _ => Option.none
  | bt :: bts, fmt, tbt =>
    if bt.has_command tbt.command || bt.has_command? tbt.matchHint then
      some (bt.add_translation fmt tbt :: bts)
    else
      (attachFirst bts fmt tbt).map (fun l => bt :: l)

/-- The `for tbt in new_blocks` merge loop of `Kurt.register`: on a failed
match with a declared hint it raises, leaving the catalog as merged so far. -/
def mergeBlocks (fmt : String) : List BlockType → List TranslatedBlockType →
    List BlockType × Option String
  | catalog, [] => (catalog, Option.none)
  | catalog, tbt :: rest =>
    match attachFirst catalog fmt tbt with
    | some catalog' => mergeBlocks fmt catalog' rest
    | Option.none =>
      match tbt.matchHint with
      | some m => (catalog, some ("Couldn't match " ++ m))
      | Option.none => mergeBlocks fmt (catalog ++ [BlockType.ofTBT tbt]) rest

/-- `Kurt.register(plugin)`: insert into the plugin table, resolve the
declared capability names against the capability table (an unknown name
raises before any block is merged), stamp each block definition with the
plugin name, and merge the definitions into the canonical catalog.  The
returned state reflects mutations up to the error point, the second
component being the raised error, if any. -/
def Kurt.register (st : KurtState) (p : KurtPlugin) : KurtState × Option String :=
  let plugins' := pluginsUpdate st.plugins p.name p
  match p.features.find? (fun f => (Feature.get? f).isNone) with
  | some f => ({ st with plugins := plugins' }, some ("KeyError: " ++ f))
  | Option.none =>
    let tbts := (p.blocks.filterMap id).map (fun t => { t with format := some p.name })
    let res := mergeBlocks p.name st.blocks tbts
    ({ plugins := plugins', blocks := res.1 }, res.2)

/-! ## `Kurt.get_plugin` -/
/-- The plugin attributes that `get_plugin` criteria may query. -/
inductive PluginAttr where
  | name
  | display_name
  | extension
  deriving DecidableEq, Repr

def KurtPlugin.getAttr (p : KurtPlugin) : PluginAttr → String
  | PluginAttr.name => p.name
  | PluginAttr.display_name => p.display_name
  | PluginAttr.extension => p.extension

/-- ASCII lowercasing of a character, embedding Python 2's `str.lower()`. -/
def pyLowerChar (c : Char) : Char :=
  if 'A' ≤ c ∧ c ≤ 'Z' then Char.ofNat (c.toNat + 32) else c

/-- `s.lower()`. -/
def pyLower (s : String) : String := String.mk (s.data.map pyLowerChar)

/-- Keyword-dict assignment for criteria. -/
def attrUpdate : List (PluginAttr × String) → PluginAttr → String →
    List (PluginAttr × String)
  | [], a, v => [(a, v)]
  | (a', v') :: d, a, v =>
    if a' = a then (a', v) :: d else (a', v') :: attrUpdate d a v

/-- The kwargs pre-processing of `get_plugin`: lowercase any `extension`
criterion, then store a truthy `name` positional argument under the `name`
key. -/
def processKwargs (name? : Option String) (kwargs : List (PluginAttr × String)) :
    List (PluginAttr × String) :=
  let kwargs := kwargs.map (fun q =>
    if q.1 = PluginAttr.extension then (q.1, pyLower q.2) else q)
  match name? with
  | some nm => if nm = "" then kwargs else attrUpdate kwargs PluginAttr.name nm
  | Option.none => kwargs

/-- `Kurt.get_plugin(name=None, **kwargs)` for queries that are not an
already-resolved plugin: linear scan over the registered plugins, returning
the first whose attributes all equal the processed criteria. -/
def Kurt.get_plugin (st : KurtState) (name? : Option String)
    (kwargs : List (PluginAttr × String)) : Except String KurtPlugin :=
  let crits := processKwargs name? kwargs
  if crits.isEmpty then Except.error "No arguments"
  else
    match (st.plugins.map Prod.snd).find?
        (fun p => crits.all (fun q => p.getAttr q.1 == q.2)) with
    | some p => Except.ok p
    | Option.none => Except.error "Unknown format"

/-- A plugin satisfies a processed criteria list when every queried
attribute equals the supplied value. -/
def satisfiesCriteria (p : KurtPlugin) (crits : List (PluginAttr × String)) :
    Prop :=
  ∀ q ∈ crits, p.getAttr q.1 = q.2

/-! ## Projects and degrade transforms (`Feature` workarounds) -/
/-- Modelled from the spec: `kurt.Image` (kurt core, not under `src/`) — an
image with its format name (`"SVG"` for vector images, `none` for raster
data), size and, for `Image.new`, a solid fill colour. -/
structure Image where
  format : Option String
  width : Nat
  height : Nat
  fill : Option (Nat × Nat × Nat)
  deriving DecidableEq, Repr

/-- Modelled from the spec: `kurt.Image.new(size, color)` — a raster image of
the given size filled with the given colour. -/
def Image.new (w h : Nat) (rgb : Nat × Nat × Nat) : Image :=
  { format := Option.none, width := w, height := h, fill := some rgb }

def RED : Nat × Nat × Nat := (255, 0, 0)

/-- `PLACEHOLDER = kurt.Image.new((32, 32), RED)`. -/
def PLACEHOLDER : Image := Image.new 32 32 RED

/-- Modelled from the spec: a costume — a named image. -/
structure Costume where
  name : String
  image : Image
  deriving DecidableEq, Repr

/-- Modelled from the spec: a scriptable (the stage or a sprite) with its
name, costume list and local variable/list namespaces. -/
structure Scriptable where
  name : String
  costumes : List Costume
  «variables» : Store
  lists : Store
  deriving DecidableEq, Repr

/-- Modelled from the spec: the project root — stage, ordered sprites, global
variable/list namespaces. -/
structure Project where
  stage : Scriptable
  sprites : List Scriptable
  «variables» : Store
  lists : Store
  deriving DecidableEq, Repr

/-- `[project.stage] + project.sprites`. -/
def Project.scriptables (p : Project) : List Scriptable := p.stage :: p.sprites

/-- A Python generator run: for each delivered label, the project state
visible at the moment of delivery, plus the state after exhaustion.  A
caller consuming `j ≥ 1` labels and abandoning the generator observes the
state stored with the `j`-th label; only draining past the last label

reaches `final`. -/
structure GenRun (σ : Type) where
  yields : List (σ × String)
  final : σ
  deriving DecidableEq, Repr

def modifyAt {α : Type} : List α → Nat → (α → α) → List α
  | [], _, _ => []
  | x :: xs, 0, f => f x :: xs
  | x :: xs, i + 1, f => x :: modifyAt xs i f

def Scriptable.setCostumeImage (s : Scriptable) (ci : Nat) (img : Image) :
    Scriptable :=
  { s with costumes := modifyAt s.costumes ci (fun c => { c with image := img }) }

/-- `costume.image = img` for the costume at position `(scriptable index,
costume index)` — index 0 is the stage, `i + 1` the `i`-th sprite. -/
def Project.replaceImage (p : Project) (q : Nat × Nat) (img : Image) : Project :=
  match q.1 with
  | 0 => { p with stage := p.stage.setCostumeImage q.2 img }
  | si + 1 =>
    { p with sprites := modifyAt p.sprites si (fun s => s.setCostumeImage q.2 img) }

def Project.scriptableAt? (p : Project) (si : Nat) : Option Scriptable :=
  p.scriptables.get? si

def costumeAt? (p : Project) (q : Nat × Nat) : Option Costume :=
  (p.scriptableAt? q.1).bind (fun s => s.costumes.get? q.2)

/-- The iteration order of the two nested loops of the vector-image
workaround: every costume position of the stage then of each sprite. -/
def positionsFrom : Nat → List Scriptable → List (Nat × Nat)
  | _, [] => []
  | si, s :: ss =>
    (List.range s.costumes.length).map (fun ci => (si, ci))
      ++ positionsFrom (si + 1) ss

def allPositions (p : Project) : List (Nat × Nat) := positionsFrom 0 p.scriptables

/-- `costume.image.format == "SVG"` at a position (read from the live,
possibly already partially mutated project). -/
def isSVGAt (p : Project) (q : Nat × Nat) : Bool :=
  match costumeAt? p q with
  | some c => c.image.format == some "SVG"
  | Option.none => false

/-- `"%s - %s" % (scriptable.name, costume.name)`. -/
def labelOf (p : Project) (q : Nat × Nat) : String :=
  ((p.scriptableAt? q.1).map Scriptable.name).getD "" ++ " - "
    ++ ((costumeAt? p q).map Costume.name).getD ""

/-- The assignment pending after a yield, executed upon resumption. -/
def applyPend (p : Project) : Option (Nat × Nat) → Project
  | some q => p.replaceImage q PLACEHOLDER
  | Option.none => p

/-- The "Vector Images" workaround generator: walk every costume position;
at an SVG costume, deliver the label first (the replacement is the next
statement, so it becomes the pending assignment executed only when the
caller resumes the generator). -/
def vectorRunAux : List (Nat × Nat) → Project → Option (Nat × Nat) →
    GenRun Project
  | [], p, pend => { yields := [], final := applyPend p pend }
  | q :: rest, p, pend =>
    let p' := applyPend p pend
    match costumeAt? p' q with
    | some c =>
      if c.image.format == some "SVG" then
        let r := vectorRunAux rest p' (some q)
        { yields := (p', labelOf p' q) :: r.yields, final := r.final }
      else vectorRunAux rest p' Option.none
    | Option.none => vectorRunAux rest p' Option.none

/-- The full run of the "Vector Images" degrade transform. -/
def vectorWorkaroundRun (p : Project) : GenRun Project :=
  vectorRunAux (allPositions p) p Option.none

/-- The "Stage-specific Variables" workaround generator: both loops only
yield labels (no mutation), and the merge into the global namespaces plus
the clearing of the stage-local ones happen after the last yield, i.e. only
when the generator is drained past its final label. -/
def varHoistRun (p : Project) : GenRun Project :=
  { yields := p.stage.variables.map (fun pr => (p, "variable " ++ pr.1))
      ++ p.stage.lists.map (fun pr => (p, "list " ++ pr.1)),
    final := { p with
      «variables» := dictUpdates p.variables p.stage.variables,
      lists := dictUpdates p.lists p.stage.lists,
      stage := { p.stage with «variables» := [], lists := [] } } }

/-- The state reached after replacing the costume images at a list of
positions with the placeholder. -/
def replacePositions (p : Project) (qs : List (Nat × Nat)) : Project :=
  qs.foldl (fun a q => a.replaceImage q PLACEHOLDER) p

/-- The yields of the vector workaround, stated recursively: each SVG
position is reported with the state current at its delivery, and the
replacement lands before the next report. -/
def vectorSpecYields : Project → List (Nat × Nat) → List (Project × String)
  | _, [] => []
  | p, q :: qs =>
    (p, labelOf p q) :: vectorSpecYields (p.replaceImage q PLACEHOLDER) qs

/-- A one-sprite project whose only costume is an SVG image. -/
def demoProject : Project :=
  ⟨⟨"Stage", [], [], []⟩,
   [⟨"Sprite1", [⟨"costume1", ⟨some "SVG", 10, 10, Option.none⟩⟩], [], []⟩],
   [], []⟩

/-- A project whose stage holds one stage-specific variable. -/
def demoProject2 : Project :=
  ⟨⟨"Stage", [], [("a", PyVal.int 1)], []⟩, [], [], []⟩

/-! ## Theorems -/

@[simp] theorem keys_nil : keys [] = [] := rfl

@[simp] theorem keys_cons (p : String × PyVal) (d : Store) :
    keys (p :: d) = p.1 :: keys d := rfl

@[simp] theorem keys_append (d d' : Store) :
    keys (d ++ d') = keys d ++ keys d' := by
  simp [keys]

theorem dictGet?_eq_none_iff (d : Store) (k : String) :
    dictGet? d k = Option.none ↔ k ∉ keys d := by
  induction d with
  | nil => simp [dictGet?]
  | cons p d ih =>
    obtain ⟨k', v⟩ := p
    by_cases h : k' = k
    · subst h
      simp [dictGet?]
    · simp [dictGet?, h, ih, Ne.symm h]

theorem dictGet?_isSome_iff (d : Store) (k : String) :
    (dictGet? d k).isSome ↔ k ∈ keys d := by
  rcases h : dictGet? d k with _ | v
  · simp [(dictGet?_eq_none_iff d k).mp h]
  · have h' : dictGet? d k ≠ Option.none := by simp [h]
    have hk := (not_iff_not.mpr (dictGet?_eq_none_iff d k)).mp h'
    simp [h, not_not.mp hk]

@[simp] theorem dictGet?_cons_self (k : String) (v : PyVal) (d : Store) :
    dictGet? ((k, v) :: d) k = some v := by
  simp [dictGet?]

theorem dictGet?_cons_ne (k k' : String) (v : PyVal) (d : Store) (h : k' ≠ k) :
    dictGet? ((k', v) :: d) k = dictGet? d k := by
  simp [dictGet?, h]

/-- Updating a fresh key appends the entry. -/
theorem dictUpdate_fresh (d : Store) (k : String) (v : PyVal)
    (h : k ∉ keys d) : dictUpdate d k v = d ++ [(k, v)] := by
  induction d with
  | nil => rfl
  | cons p d ih =>
    obtain ⟨k', v'⟩ := p
    simp only [keys_cons, List.mem_cons] at h
    push_neg at h
    simp [dictUpdate, Ne.symm h.1, ih h.2]

/-- Updating a key present in the first component of an append whose prefix
lacks the key replaces the entry in place. -/
theorem dictUpdate_mid (pre : Store) (k : String) (w v : PyVal) (rest : Store)
    (h : k ∉ keys pre) :
    dictUpdate (pre ++ (k, w) :: rest) k v = pre ++ (k, v) :: rest := by
  induction pre with
  | nil => simp [dictUpdate]
  | cons p pre ih =>
    obtain ⟨k', v'⟩ := p
    simp only [keys_cons, List.mem_cons] at h
    push_neg at h
    simp [dictUpdate, Ne.symm h.1, ih h.2]

theorem keys_dictUpdate_mem (d : Store) (k : String) (v : PyVal)
    (h : k ∈ keys d) : keys (dictUpdate d k v) = keys d := by
  induction d with
  | nil => simp at h
  | cons p d ih =>
    obtain ⟨k', v'⟩ := p
    by_cases hk : k' = k
    · simp [dictUpdate, hk]
    · simp only [keys_cons, List.mem_cons] at h
      rcases h with h | h
      · exact absurd h.symm hk
      · simp [dictUpdate, hk, ih h]

theorem dictGet?_dictUpdate_self (d : Store) (k : String) (v : PyVal) :
    dictGet? (dictUpdate d k v) k = some v := by
  induction d with
  | nil => simp [dictUpdate]
  | cons p d ih =>
    obtain ⟨k', v'⟩ := p
    by_cases hk : k' = k <;> simp [dictUpdate, dictGet?, hk, ih]

theorem dictGet?_dictUpdate_ne (d : Store) (k k' : String) (v : PyVal)
    (h : k' ≠ k) : dictGet? (dictUpdate d k v) k' = dictGet? d k' := by
  induction d with
  | nil => simp [dictUpdate, dictGet?, Ne.symm h]
  | cons p d ih =>
    obtain ⟨kh, vh⟩ := p
    by_cases hk : kh = k
    · subst hk
      simp [dictUpdate, dictGet?, Ne.symm h]
    · by_cases hk' : kh = k' <;> simp [dictUpdate, dictGet?, hk, hk', ih, h]

theorem dictGet?_dictDelete_ne (d : Store) (k k' : String) (h : k' ≠ k) :
    dictGet? (dictDelete d k) k' = dictGet? d k' := by
  induction d with
  | nil => rfl
  | cons p d ih =>
    obtain ⟨kh, vh⟩ := p
    by_cases hk : kh = k
    · subst hk
      simp [dictDelete, dictGet?, Ne.symm h]
    · by_cases hk' : kh = k' <;> simp [dictDelete, dictGet?, hk, hk', ih, h]

theorem dictGet?_append_left (d d' : Store) (k : String) (h : k ∈ keys d) :
    dictGet? (d ++ d') k = dictGet? d k := by
  induction d with
  | nil => simp at h
  | cons p d ih =>
    obtain ⟨kh, vh⟩ := p
    by_cases hk : kh = k
    · simp [dictGet?, hk]
    · simp only [keys_cons, List.mem_cons] at h
      rcases h with h | h
      · exact absurd h.symm hk
      · simp [dictGet?, hk, ih h]

theorem dictGet?_append_right (d d' : Store) (k : String) (h : k ∉ keys d) :
    dictGet? (d ++ d') k = dictGet? d' k := by
  induction d with
  | nil => rfl
  | cons p d ih =>
    obtain ⟨kh, vh⟩ := p
    simp only [keys_cons, List.mem_cons] at h
    push_neg at h
    simp [dictGet?, Ne.symm h.1, ih h.2]

/-- Updates whose keys all differ from the head key pass over the head. -/
theorem dictUpdates_cons_of_ne (p : String × PyVal) (d : Store)
    (kvs : List (String × PyVal)) (h : ∀ q ∈ kvs, q.1 ≠ p.1) :
    dictUpdates (p :: d) kvs = p :: dictUpdates d kvs := by
  induction kvs generalizing d with
  | nil => rfl
  | cons q kvs ih =>
    have hne : q.1 ≠ p.1 := h q (List.mem_cons_self _ _)
    have hstep : dictUpdate (p :: d) q.1 q.2 = p :: dictUpdate d q.1 q.2 := by
      obtain ⟨kp, vp⟩ := p
      simp only [dictUpdate]
      rw [if_neg (fun hh => hne hh.symm)]
    show dictUpdates (dictUpdate (p :: d) q.1 q.2) kvs
        = p :: dictUpdates (dictUpdate d q.1 q.2) kvs
    rw [hstep]
    exact ih _ (fun r hr => h r (List.mem_cons_of_mem _ hr))

theorem dictGet?_dictUpdates_not_mem (d : Store) (kvs : List (String × PyVal))
    (k : String) (h : ∀ q ∈ kvs, q.1 ≠ k) :
    dictGet? (dictUpdates d kvs) k = dictGet? d k := by
  induction kvs generalizing d with
  | nil => rfl
  | cons q kvs ih =>
    show dictGet? (dictUpdates (dictUpdate d q.1 q.2) kvs) k = dictGet? d k
    rw [ih _ (fun r hr => h r (List.mem_cons_of_mem _ hr)),
      dictGet?_dictUpdate_ne _ _ _ _ (Ne.symm (h q (List.mem_cons_self _ _)))]

theorem charToDigit?_digitToChar (d : Nat) (h : d < 10) :
    charToDigit? (digitToChar d) = some d := by
  interval_cases d <;> decide

theorem digitToChar_ne_dash (d : Nat) (h : d < 10) : digitToChar d ≠ '-' := by
  interval_cases d <;> decide

theorem digitToChar_ne_plus (d : Nat) (h : d < 10) : digitToChar d ≠ '+' := by
  interval_cases d <;> decide

theorem natDigitsAux_all_digits (fuel n : Nat) :
    ∀ c ∈ natDigitsAux fuel n, ∃ d, d < 10 ∧ c = digitToChar d := by
  induction fuel generalizing n with
  | zero => intro c hc; simp [natDigitsAux] at hc
  | succ fuel ih =>
    intro c hc
    match n with
    | 0 => simp [natDigitsAux] at hc
    | m + 1 =>
      simp only [natDigitsAux, List.mem_append, List.mem_singleton] at hc
      rcases hc with hc | hc
      · exact ih _ c hc
      · exact ⟨(m + 1) % 10, Nat.mod_lt _ (by norm_num), hc⟩

/-- Folding the parse step over the digit string of `n` computes
`acc * 10 ^ length + n`. -/
theorem parse_fold_natDigitsAux (fuel n : Nat) (hfuel : n ≤ fuel) (acc : Nat) :
    (natDigitsAux fuel n).foldlM
        (fun acc c => (charToDigit? c).map (fun d => 10 * acc + d)) acc
      = some (acc * 10 ^ (natDigitsAux fuel n).length + n) := by
  induction fuel generalizing n acc with
  | zero =>
    interval_cases n
    simp [natDigitsAux]
  | succ fuel ih =>
    match n with
    | 0 => simp [natDigitsAux]
    | m + 1 =>
      have hdiv : (m + 1) / 10 ≤ fuel :=
        Nat.le_of_lt_succ (Nat.lt_of_lt_of_le (Nat.div_lt_self (Nat.succ_pos m) (by norm_num)) hfuel)
      simp only [natDigitsAux, List.foldlM_append, ih _ hdiv acc]
      simp only [Option.bind_eq_bind, Option.some_bind, List.foldlM_cons, List.foldlM_nil,
        charToDigit?_digitToChar _ (Nat.mod_lt _ (by norm_num : (0:Nat) < 10)), Option.map_some',
        Option.some_bind, List.length_append, List.length_singleton]
      congr 1
      have := Nat.div_add_mod (m + 1) 10
      ring_nf
      omega

theorem natDigitsAux_ne_nil (fuel n : Nat) (hn : n ≠ 0) (hfuel : fuel ≠ 0) :
    natDigitsAux fuel n ≠ [] := by
  match fuel, n with
  | 0, _ => exact absurd rfl hfuel
  | fuel + 1, 0 => exact absurd rfl hn
  | fuel + 1, m + 1 => simp [natDigitsAux]

/-- Round trip: parsing the printed decimal representation of `n` gives `n`. -/
theorem parseNatChars_natDigits (n : Nat) : parseNatChars (natDigits n) = some n := by
  by_cases hn : n = 0
  · subst hn; decide
  · have hne := natDigitsAux_ne_nil n n hn hn
    simp only [natDigits, if_neg hn, parseNatChars]
    match hd : natDigitsAux n n, parse_fold_natDigitsAux n n le_rfl 0 with
    | [], _ => exact absurd hd hne
    | c :: cs, h => simpa using h

theorem natDigits_ne_dash : ∀ (n : Nat), ∀ c ∈ natDigits n, c ≠ '-' ∧ c ≠ '+' := by
  intro n c hc
  by_cases hn : n = 0
  · subst hn
    rw [show natDigits 0 = ['0'] from rfl, List.mem_singleton] at hc
    subst hc; decide
  · simp only [natDigits, if_neg hn] at hc
    obtain ⟨d, hd, rfl⟩ := natDigitsAux_all_digits n n c hc
    exact ⟨digitToChar_ne_dash d hd, digitToChar_ne_plus d hd⟩

theorem pyInt?_natDigits (n : Nat) : pyInt? (natDigits n) = some (n : Int) := by
  have hne : natDigits n ≠ [] := by
    by_cases hn : n = 0
    · subst hn; decide
    · simpa [natDigits, if_neg hn] using natDigitsAux_ne_nil n n hn hn
  match hd : natDigits n with
  | [] => exact absurd hd hne
  | c :: cs =>
    obtain ⟨h1, h2⟩ := natDigits_ne_dash n c (by rw [hd]; exact List.mem_cons_self _ _)
    rw [pyInt?, if_neg h1, if_neg h2, ← hd, parseNatChars_natDigits]
    rfl

theorem splitDash_no_dash (l : List Char) (h : '-' ∉ l) : splitDash l = [l] := by
  induction l with
  | nil => rfl
  | cons c rest ih =>
    simp only [List.mem_cons] at h
    push_neg at h
    rw [splitDash, if_neg (fun hh => h.1 hh.symm), ih h.2]

theorem splitDash_append_dash (l1 l2 : List Char) (h : '-' ∉ l1) :
    splitDash (l1 ++ '-' :: l2) = l1 :: splitDash l2 := by
  induction l1 with
  | nil => simp [splitDash]
  | cons c rest ih =>
    simp only [List.mem_cons] at h
    push_neg at h
    rw [List.cons_append, splitDash, if_neg (fun hh => h.1 hh.symm), ih h.2]

theorem natDigits_no_dash_mem (n : Nat) : '-' ∉ natDigits n := by
  intro h
  exact (natDigits_ne_dash n '-' h).1 rfl

theorem parseSuffix_undefinedName (i : Nat) :
    parseSuffix (undefinedName i) = some (i : Int) := by
  have h1 := splitDash_append_dash ['u', 'n', 'd', 'e', 'f', 'i', 'n', 'e', 'd']
    (natDigits i) (by decide)
  have h2 : splitDash (natDigits i) = [natDigits i] :=
    splitDash_no_dash _ (natDigits_no_dash_mem i)
  have h3 : (undefinedName i).data
      = ['u', 'n', 'd', 'e', 'f', 'i', 'n', 'e', 'd'] ++ '-' :: natDigits i := rfl
  unfold parseSuffix
  rw [h3, h1, h2]
  show pyInt? (natDigits i) = some (i : Int)
  exact pyInt?_natDigits i

theorem undefinedName_injective : Function.Injective undefinedName := by
  intro i j h
  have hi := parseSuffix_undefinedName i
  rw [h, parseSuffix_undefinedName j] at hi
  have hj : (j : Int) = (i : Int) := by injection hi
  exact_mod_cast hj.symm

theorem undefinedName_ne_name (i : Nat) : undefinedName i ≠ "name" := by
  intro h
  have hd : (undefinedName i).data = "name".data := congrArg String.data h
  have h1 : (undefinedName i).data
      = 'u' :: (['n', 'd', 'e', 'f', 'i', 'n', 'e', 'd', '-'] ++ natDigits i) := rfl
  have h2 : "name".data = ['n', 'a', 'm', 'e'] := rfl
  rw [h1, h2] at hd
  have hu : 'u' = 'n' := by
    have hh := congrArg (fun l => l.head?) hd
    simp only [List.head?] at hh
    injection hh
  exact absurd hu (by decide)

/-! ## Store/zip interaction lemmas -/
theorem keys_zip (ks : List String) (W : List PyVal) (h : ks.length ≤ W.length) :
    keys (ks.zip W) = ks := by
  simpa [keys] using List.map_fst_zip ks W h

theorem zip_eq_zip_take {α β : Type} (l1 : List α) (l2 : List β) :
    l1.zip l2 = (l1.take l2.length).zip l2 := by
  induction l1 generalizing l2 with
  | nil => simp
  | cons a l1 ih =>
    cases l2 with
    | nil => simp
    | cons b l2 => simp [ih l2]

theorem zip_append_general {α β : Type} (ks1 ks2 : List α) (vs : List β) :
    (ks1 ++ ks2).zip vs
      = ks1.zip (vs.take ks1.length) ++ ks2.zip (vs.drop ks1.length) := by
  induction ks1 generalizing vs with
  | nil => simp
  | cons k ks1 ih =>
    cases vs with
    | nil => simp
    | cons v vs => simp [ih vs]

/-- Updating with pairs whose keys are fresh and distinct appends them. -/
theorem dictUpdates_fresh (d : Store) (ks : List String) (vs : List PyVal)
    (hnd : ks.Nodup) (hfresh : ∀ k ∈ ks, k ∉ keys d) :
    dictUpdates d (ks.zip vs) = d ++ ks.zip vs := by
  induction ks generalizing d vs with
  | nil => simp [dictUpdates]
  | cons k ks ih =>
    cases vs with
    | nil => simp [dictUpdates]
    | cons v vs =>
      rw [List.zip_cons_cons]
      show dictUpdates (dictUpdate d k v) (ks.zip vs) = d ++ (k, v) :: ks.zip vs
      rw [dictUpdate_fresh d k v (hfresh k (List.mem_cons_self _ _)),
        ih (d ++ [(k, v)]) vs hnd.of_cons]
      · simp
      · intro k' hk'
        simp only [keys_append, List.mem_append, keys_cons, keys_nil,
          List.mem_singleton, not_or]
        exact ⟨hfresh k' (List.mem_cons_of_mem _ hk'),
          fun hh => (List.nodup_cons.mp hnd).1 (hh ▸ hk')⟩

/-- The central update computation: starting from a store carrying exactly the
declared keys `ks`, updating with the zip of `ks ++ us` against the raw
values overwrites the covered declared slots in place and appends the fresh
synthetic entries. -/
theorem dictUpdates_zip (ks us : List String) (W vs : List PyVal)
    (hnd : ks.Nodup) (hund : us.Nodup) (hdisj : ∀ u ∈ us, u ∉ ks)
    (hW : W.length = ks.length) :
    dictUpdates (ks.zip W) ((ks ++ us).zip vs)
      = ks.zip (vs.take ks.length ++ W.drop vs.length)
        ++ us.zip (vs.drop ks.length) := by
  induction ks generalizing W vs with
  | nil =>
    have hWnil : W = [] := List.length_eq_zero.mp (by simpa using hW)
    subst hWnil
    simp only [List.nil_append, List.zip_nil_left, List.length_nil,
      List.take_zero, List.zip_nil_right, List.drop_zero]
    exact dictUpdates_fresh [] us vs hund (fun k _ hk => by simp [keys] at hk)
  | cons k ks ih =>
    match W, hW with
    | w :: W, hW =>
      cases vs with
      | nil => simp [dictUpdates]
      | cons v vs =>
        have hk_ks : k ∉ ks := (List.nodup_cons.mp hnd).1
        have hk_us : k ∉ us := fun hh => hdisj k hh (List.mem_cons_self _ _)
        rw [List.zip_cons_cons, List.cons_append, List.zip_cons_cons]
        show dictUpdates (dictUpdate ((k, w) :: ks.zip W) k v) ((ks ++ us).zip vs)
          = ((k :: ks).zip (((v :: vs).take (k :: ks).length)
              ++ (w :: W).drop (v :: vs).length))
            ++ us.zip ((v :: vs).drop (k :: ks).length)
        have hupd : dictUpdate ((k, w) :: ks.zip W) k v = (k, v) :: ks.zip W := by
          simp [dictUpdate]
        rw [hupd, dictUpdates_cons_of_ne _ _ _ (fun q hq => by
          show q.1 ≠ k
          rcases List.of_mem_zip hq with ⟨hmem, _⟩
          rcases List.mem_append.mp hmem with hmem | hmem
          · exact fun hh => hk_ks (hh ▸ hmem)
          · exact fun hh => hk_us (hh ▸ hmem)),
          ih W vs hnd.of_cons
            (fun u hu => fun hh => hdisj u hu (List.mem_cons_of_mem _ hh))
            (by simpa using hW)]
        simp

/-- `dict(zip(fields, [None]*len(fields)))` as a zip. -/
theorem map_pair_const (fs : List String) (c : PyVal) :
    fs.map (fun f => (f, c)) = fs.zip (List.replicate fs.length c) := by
  induction fs with
  | nil => rfl
  | cons f fs ih => simp [ih, List.replicate_succ]

theorem foldl_dictUpdate_fresh (d : Store) (fs : List String)
    (hnd : fs.Nodup) (hfresh : ∀ f ∈ fs, f ∉ keys d) :
    fs.foldl (fun d f => dictUpdate d f PyVal.none) d
      = d ++ fs.map (fun f => (f, PyVal.none)) := by
  induction fs generalizing d with
  | nil => simp
  | cons f fs ih =>
    show fs.foldl (fun d f => dictUpdate d f PyVal.none) (dictUpdate d f PyVal.none)
      = d ++ (f, PyVal.none) :: fs.map (fun f => (f, PyVal.none))
    rw [dictUpdate_fresh d f PyVal.none (hfresh f (List.mem_cons_self _ _)),
      ih (d ++ [(f, PyVal.none)]) hnd.of_cons]
    · simp
    · intro f' hf'
      simp only [keys_append, List.mem_append, keys_cons, keys_nil,
        List.mem_singleton, not_or]
      exact ⟨hfresh f' (List.mem_cons_of_mem _ hf'),
        fun hh => (List.nodup_cons.mp hnd).1 (hh ▸ hf')⟩

theorem initFields0_eq (sch : Schema) (hnd : sch.fields.Nodup) :
    UserObject.initFields0 sch
      = sch.fields.zip (List.replicate sch.fields.length PyVal.none) := by
  rw [UserObject.initFields0,
    foldl_dictUpdate_fresh [] sch.fields hnd (fun f _ hf => by simp [keys] at hf),
    List.nil_append, map_pair_const]

/-- In-place update of a zip-shaped store at a present key keeps the key list. -/
theorem dictUpdate_zip_mem (ks : List String) (W : List PyVal) (k : String)
    (v : PyVal) (hW : W.length = ks.length) (hk : k ∈ ks) :
    ∃ W', dictUpdate (ks.zip W) k v = ks.zip W' ∧ W'.length = ks.length := by
  induction ks generalizing W with
  | nil => simp at hk
  | cons k0 ks ih =>
    match W, hW with
    | w :: W, hW =>
      by_cases h0 : k0 = k
      · exact ⟨v :: W, by simp [dictUpdate, h0, List.zip], by simpa using hW⟩
      · have hk' : k ∈ ks := by
          rcases List.mem_cons.mp hk with hh | hh
          · exact absurd hh.symm h0
          · exact hh
        obtain ⟨W', hW', hlen⟩ := ih W (by simpa using hW) hk'
        exact ⟨w :: W', by simpa [dictUpdate, h0, List.zip] using hW',
          by simpa using hlen⟩

theorem setattr_schema (o : UserObject) (k : String) (v : PyVal) :
    (o.setattr k v).schema = o.schema := by
  rw [UserObject.setattr]
  split <;> rfl

theorem setattr_version (o : UserObject) (k : String) (v : PyVal) :
    (o.setattr k v).version = o.version := by
  rw [UserObject.setattr]
  split <;> rfl

/-- Running `set_defaults` keeps the field store zip-shaped over the declared
names (every assignment either updates a declared slot in place or goes to
the plain-attribute namespace). -/
theorem applySetattrs_fields (defaults : List (String × PyVal)) (o : UserObject)
    (ks : List String) (hks : o.schema.fields = ks)
    (W : List PyVal) (hW : W.length = ks.length) (hf : o.fields = ks.zip W) :
    ∃ W', (o.applySetattrs defaults).fields = ks.zip W' ∧ W'.length = ks.length
      ∧ (o.applySetattrs defaults).schema = o.schema
      ∧ (o.applySetattrs defaults).version = o.version := by
  induction defaults generalizing o W with
  | nil => exact ⟨W, hf, hW, rfl, rfl⟩
  | cons p defaults ih =>
    rw [show o.applySetattrs (p :: defaults)
        = (o.setattr p.1 p.2).applySetattrs defaults from rfl]
    by_cases hmem : p.1 ∈ o.schema.fields
    · obtain ⟨W1, hW1, hlen1⟩ := dictUpdate_zip_mem ks W p.1 p.2 hW (hks ▸ hmem)
      have hfld : (o.setattr p.1 p.2).fields = ks.zip W1 := by
        rw [UserObject.setattr, if_pos hmem]
        simpa [hf] using hW1
      obtain ⟨W', h1, h2, h3, h4⟩ := ih (o.setattr p.1 p.2)
        (by rw [setattr_schema]; exact hks) W1 hlen1 hfld
      exact ⟨W', h1, h2, by rw [h3, setattr_schema], by rw [h4, setattr_version]⟩
    · have hfld : (o.setattr p.1 p.2).fields = ks.zip W := by
        rw [UserObject.setattr, if_neg hmem]
        simpa using hf
      obtain ⟨W', h1, h2, h3, h4⟩ := ih (o.setattr p.1 p.2)
        (by rw [setattr_schema]; exact hks) W hW hfld
      exact ⟨W', h1, h2, by rw [h3, setattr_schema], by rw [h4, setattr_version]⟩

/-! ## `ordered_fields` characterization -/
theorem dictGet?_filter (d : Store) (pred : String × PyVal → Bool) (f : String)
    (h : ∀ p ∈ d, p.1 = f → pred p = true) :
    dictGet? (d.filter pred) f = dictGet? d f := by
  induction d with
  | nil => rfl
  | cons p d ih =>
    obtain ⟨k, v⟩ := p
    by_cases hk : k = f
    · subst hk
      rw [List.filter_cons_of_pos (h (k, v) (List.mem_cons_self _ _) rfl)]
      simp [dictGet?]
    · have ih' := ih (fun p hp => h p (List.mem_cons_of_mem _ hp))
      cases hp : pred (k, v)
      · rw [List.filter_cons_of_neg (by simp [hp]), dictGet?_cons_ne _ _ _ _ hk, ih']
      · rw [List.filter_cons_of_pos (by simp [hp]), dictGet?_cons_ne _ _ _ _ hk,
          dictGet?_cons_ne _ _ _ _ hk, ih']

theorem keys_filter_nodup (d : Store) (pred : String × PyVal → Bool)
    (h : (keys d).Nodup) : (keys (d.filter pred)).Nodup := by
  have hsub : (d.filter pred).Sublist d := List.filter_sublist d
  exact (hsub.map Prod.fst).nodup h

theorem dictDelete_eq_filter (e : Store) (f : String) (hnd : (keys e).Nodup) :
    dictDelete e f = e.filter (fun p => decide (p.1 ≠ f)) := by
  induction e with
  | nil => rfl
  | cons p e ih =>
    obtain ⟨k, v⟩ := p
    simp only [keys_cons, List.nodup_cons] at hnd
    by_cases hk : k = f
    · subst hk
      rw [show dictDelete ((k, v) :: e) k = e from by simp [dictDelete],
        List.filter_cons_of_neg (by simp)]
      refine (List.filter_eq_self.mpr ?_).symm
      intro p hp
      have : p.1 ∈ keys e := List.mem_map_of_mem Prod.fst hp
      simp only [decide_eq_true_eq]
      exact fun hh => hnd.1 (hh ▸ this)
    · rw [show dictDelete ((k, v) :: e) f = (k, v) :: dictDelete e f from by
        simp [dictDelete, hk], List.filter_cons_of_pos (by simp [hk]), ih hnd.2]

/-- Characterization of the declared-field pass: with duplicate-free store
keys and declared names, it returns every declared name paired with its
stored value (or `None`), leaving exactly the non-declared entries. -/
theorem popLoop_spec (d : Store) (fs : List String) (done : List String)
    (hknd : (keys d).Nodup) (hfnd : fs.Nodup) (hdone : ∀ f ∈ fs, f ∉ done) :
    UserObject.popLoop d fs (d.filter (fun p => decide (p.1 ∉ done)))
      = Except.ok (fs.map (fun f => (f, (dictGet? d f).getD PyVal.none)),
          d.filter (fun p => decide (p.1 ∉ done ∧ p.1 ∉ fs))) := by
  induction fs generalizing done with
  | nil =>
    rw [UserObject.popLoop]
    congr 2
    exact List.filter_congr (fun p hp => by simp)
  | cons f fs ih =>
    have hf_done : f ∉ done := hdone f (List.mem_cons_self _ _)
    have hf_fs : f ∉ fs := (List.nodup_cons.mp hfnd).1
    rcases hv : dictGet? d f with _ | v
    · -- declared field absent from the store
      have hcond : ¬(dictGet? d f).isSome = true := by simp [hv]
      have ihd := ih done hfnd.of_cons (fun g hg => hdone g (List.mem_cons_of_mem _ hg))
      have hnotkey : f ∉ keys d := (dictGet?_eq_none_iff d f).mp hv
      have hfilter : d.filter (fun p => decide (p.1 ∉ done ∧ p.1 ∉ fs))
          = d.filter (fun p => decide (p.1 ∉ done ∧ p.1 ∉ f :: fs)) := by
        refine List.filter_congr (fun p hp => ?_)
        have hpf : p.1 ≠ f := by
          intro hh
          exact hnotkey (hh ▸ List.mem_map_of_mem Prod.fst hp)
        simp [hpf]
      rw [UserObject.popLoop, if_neg hcond, ihd, List.map_cons, hv, ← hfilter]
      rfl
    · -- declared field present: pop it from the copy
      have hcond : (dictGet? d f).isSome = true := by simp [hv]
      have hget : dictGet? (d.filter (fun p => decide (p.1 ∉ done))) f
          = some v := by
        rw [dictGet?_filter d _ f (fun p _ hpf => by simp [hpf, hf_done]), hv]
      have hdel : dictDelete (d.filter (fun p => decide (p.1 ∉ done))) f
          = d.filter (fun p => decide (p.1 ∉ f :: done)) := by
        rw [dictDelete_eq_filter _ f (keys_filter_nodup d _ hknd), List.filter_filter]
        exact List.filter_congr (fun p hp => by
          by_cases h1 : p.1 = f <;> by_cases h2 : p.1 ∈ done <;> simp [h1, h2])
      have ihd := ih (f :: done) hfnd.of_cons (fun g hg => by
        simp only [List.mem_cons, not_or]
        exact ⟨fun hh => hf_fs (hh ▸ hg), hdone g (List.mem_cons_of_mem _ hg)⟩)
      have hfilter : d.filter (fun p => decide (p.1 ∉ f :: done ∧ p.1 ∉ fs))
          = d.filter (fun p => decide (p.1 ∉ done ∧ p.1 ∉ f :: fs)) := by
        refine List.filter_congr (fun p hp => ?_)
        by_cases h1 : p.1 = f <;> by_cases h2 : p.1 ∈ done <;>
          by_cases h3 : p.1 ∈ fs <;> simp [h1, h2, h3]
      rw [UserObject.popLoop, if_pos hcond, dictPop, hget, hdel]
      show (match UserObject.popLoop d fs
          (d.filter (fun p => decide (p.1 ∉ f :: done))) with
        | Except.ok (rest, left) => Except.ok ((f, v) :: rest, left)
        | Except.error e => Except.error e) = _
      rw [ihd, hfilter, List.map_cons, hv]
      rfl

theorem popLoop_main (d : Store) (fs : List String)
    (hknd : (keys d).Nodup) (hfnd : fs.Nodup) :
    UserObject.popLoop d fs d
      = Except.ok (fs.map (fun f => (f, (dictGet? d f).getD PyVal.none)),
          d.filter (fun p => decide (p.1 ∉ fs))) := by
  have h := popLoop_spec d fs [] hknd hfnd (by simp)
  rw [show d.filter (fun p => decide (p.1 ∉ ([] : List String))) = d from
    List.filter_eq_self.mpr (fun p _ => by simp)] at h
  rw [h]
  congr 2
  exact List.filter_congr (fun p hp => by simp)

theorem mapSortKeys_ok (extras : List (String × PyVal)) (is : List Int)
    (hparse : extras.map (fun p => parseSuffix p.1) = is.map some) :
    UserObject.mapSortKeys extras = Except.ok (is.zip extras) := by
  induction extras generalizing is with
  | nil =>
    cases is with
    | nil => rfl
    | cons i is => simp at hparse
  | cons p extras ih =>
    cases is with
    | nil => simp at hparse
    | cons i is =>
      simp only [List.map_cons, List.cons.injEq] at hparse
      rw [UserObject.mapSortKeys, UserObject.sortKey, hparse.1, ih is hparse.2]
      rfl

theorem mapSortKeys_error (extras : List (String × PyVal))
    (hbad : ∃ p ∈ extras, parseSuffix p.1 = Option.none) :
    ∃ f, parseSuffix f = Option.none ∧
      UserObject.mapSortKeys extras
        = Except.error ("ValueError: invalid field name " ++ f) := by
  induction extras with
  | nil =>
    obtain ⟨p, hp, _⟩ := hbad
    simp at hp
  | cons p extras ih =>
    rcases hp : parseSuffix p.1 with _ | i
    · exact ⟨p.1, hp, by rw [UserObject.mapSortKeys, UserObject.sortKey, hp]⟩
    · obtain ⟨q, hq, hqn⟩ := hbad
      rcases List.mem_cons.mp hq with rfl | hq'
      · rw [hp] at hqn
        cases hqn
      · obtain ⟨f, hf, hmap⟩ := ih ⟨q, hq', hqn⟩
        refine ⟨f, hf, ?_⟩
        rw [UserObject.mapSortKeys, UserObject.sortKey, hp, hmap]

theorem insertionSort_zip_sorted (is : List Int) (extras : List (String × PyVal))
    (hsort : List.Pairwise (· ≤ ·) is) :
    (is.zip extras).insertionSort (fun a b => a.1 ≤ b.1) = is.zip extras := by
  apply List.Sorted.insertionSort_eq
  induction is generalizing extras with
  | nil => simp
  | cons i is ih =>
    cases extras with
    | nil => simp
    | cons p extras =>
      rw [List.zip_cons_cons]
      refine List.pairwise_cons.mpr ⟨?_, ih extras hsort.of_cons⟩
      intro q hq
      have hmem := (List.of_mem_zip hq).1
      exact (List.pairwise_cons.mp hsort).1 q.1 hmem

/-- `ordered_fields` unfolded along its two successful stages. -/
theorem ordered_fields_eq_of (o : UserObject) (A B : List (String × PyVal))
    (keyed : List (Int × (String × PyVal)))
    (h1 : UserObject.popLoop o.fields o.schema.fields o.fields = Except.ok (A, B))
    (h2 : UserObject.mapSortKeys B = Except.ok keyed)
    (h3 : keyed.insertionSort (fun a b => a.1 ≤ b.1) = keyed)
    (h4 : keyed.map Prod.snd = B) :
    o.ordered_fields = Except.ok (A ++ B) := by
  rw [UserObject.ordered_fields, h1]
  show (match UserObject.mapSortKeys B with
    | Except.error e => Except.error e
    | Except.ok keyed =>
      Except.ok (A ++ (keyed.insertionSort
        (fun (a b : Int × (String × PyVal)) => a.1 ≤ b.1)).map Prod.snd)) = _
  rw [h2]
  show Except.ok (A ++ (keyed.insertionSort
    (fun (a b : Int × (String × PyVal)) => a.1 ≤ b.1)).map Prod.snd) = _
  rw [h3, h4]

/-- `ordered_fields` fails when key computation over the leftovers fails. -/
theorem ordered_fields_error_of (o : UserObject) (A B : List (String × PyVal))
    (e : String)
    (h1 : UserObject.popLoop o.fields o.schema.fields o.fields = Except.ok (A, B))
    (h2 : UserObject.mapSortKeys B = Except.error e) :
    o.ordered_fields = Except.error e := by
  rw [UserObject.ordered_fields, h1]
  show (match UserObject.mapSortKeys B with
    | Except.error e => Except.error e
    | Except.ok keyed =>
      Except.ok (A ++ (keyed.insertionSort
        (fun (a b : Int × (String × PyVal)) => a.1 ≤ b.1)).map Prod.snd)) = _
  rw [h2]

/-- The main success characterization of `ordered_fields`: declared names in
schema order with their stored values (defaulting to `None`), then the
non-declared entries, provided their synthetic keys parse and already appear
in ascending order. -/
theorem ordered_fields_char (o : UserObject) (is : List Int)
    (hknd : (keys o.fields).Nodup) (hfnd : o.schema.fields.Nodup)
    (hparse : (o.fields.filter (fun p => decide (p.1 ∉ o.schema.fields))).map
        (fun p => parseSuffix p.1) = is.map some)
    (hsort : List.Pairwise (· ≤ ·) is) :
    o.ordered_fields = Except.ok
      (o.schema.fields.map (fun f => (f, (dictGet? o.fields f).getD PyVal.none))
        ++ o.fields.filter (fun p => decide (p.1 ∉ o.schema.fields))) := by
  have hlen : (o.fields.filter
      (fun p => decide (p.1 ∉ o.schema.fields))).length ≤ is.length := by
    have := congrArg List.length hparse
    simpa using le_of_eq this
  exact ordered_fields_eq_of o _ _ _
    (popLoop_main o.fields o.schema.fields hknd hfnd)
    (mapSortKeys_ok _ is hparse)
    (insertionSort_zip_sorted is _ hsort)
    (List.map_snd_zip is _ hlen)

/-! ## `nameFix` and `setattr` preservation lemmas -/
theorem nameFix_schema (o : UserObject) :
    (UserObject.nameFix o).schema = o.schema := by
  rw [UserObject.nameFix]
  rcases h : dictGet? o.fields "name" with _ | v
  · rfl
  · rw [setattr_schema]

theorem nameFix_version (o : UserObject) :
    (UserObject.nameFix o).version = o.version := by
  rw [UserObject.nameFix]
  rcases h : dictGet? o.fields "name" with _ | v
  · rfl
  · rw [setattr_version]

theorem nameFix_dictGet? (o : UserObject) (g : String)
    (hg : g ≠ "name" ∨ "name" ∈ o.schema.fields) :
    dictGet? (UserObject.nameFix o).fields g = dictGet? o.fields g := by
  rw [UserObject.nameFix]
  rcases h : dictGet? o.fields "name" with _ | v
  · rfl
  · simp only [UserObject.setattr]
    by_cases hmem : "name" ∈ o.schema.fields
    · rw [if_pos hmem]
      show dictGet? (dictUpdate (dictDelete o.fields "name") "name" v) g = _
      by_cases hgname : g = "name"
      · subst hgname
        rw [dictGet?_dictUpdate_self, h]
      · rw [dictGet?_dictUpdate_ne _ _ _ _ hgname,
          dictGet?_dictDelete_ne _ _ _ hgname]
    · rw [if_neg hmem]
      have hgname : g ≠ "name" := hg.resolve_right hmem
      show dictGet? (dictDelete o.fields "name") g = _
      rw [dictGet?_dictDelete_ne _ _ _ hgname]

theorem keys_dictDelete_not_mem (d : Store) (k : String)
    (hnd : (keys d).Nodup) : k ∉ keys (dictDelete d k) := by
  rw [dictDelete_eq_filter d k hnd]
  intro hmem
  obtain ⟨p, hp, hpk⟩ := List.mem_map.mp hmem
  have := (List.mem_filter.mp hp).2
  rw [hpk] at this
  simp at this

theorem keys_dictDelete_nodup (d : Store) (k : String)
    (hnd : (keys d).Nodup) : (keys (dictDelete d k)).Nodup := by
  rw [dictDelete_eq_filter d k hnd]
  exact keys_filter_nodup d _ hnd

theorem nameFix_keys_nodup (o : UserObject)
    (h : (keys o.fields).Nodup) : (keys (UserObject.nameFix o).fields).Nodup := by
  rw [UserObject.nameFix]
  rcases hv : dictGet? o.fields "name" with _ | v
  · exact h
  · simp only [UserObject.setattr]
    by_cases hmem : "name" ∈ o.schema.fields
    · rw [if_pos hmem]
      show (keys (dictUpdate (dictDelete o.fields "name") "name" v)).Nodup
      rw [dictUpdate_fresh _ _ _ (keys_dictDelete_not_mem o.fields "name" h)]
      rw [keys_append]
      refine List.Nodup.append (keys_dictDelete_nodup o.fields "name" h) (by simp) ?_
      intro g hg1 hg2
      simp only [keys_cons, keys_nil, List.mem_singleton] at hg2
      exact keys_dictDelete_not_mem o.fields "name" h (hg2 ▸ hg1)
    · rw [if_neg hmem]
      exact keys_dictDelete_nodup o.fields "name" h

theorem nameFix_filter_not_declared (o : UserObject)
    (h : (keys o.fields).Nodup)
    (hcase : "name" ∈ o.schema.fields ∨ dictGet? o.fields "name" = Option.none) :
    (UserObject.nameFix o).fields.filter
        (fun p => decide (p.1 ∉ o.schema.fields))
      = o.fields.filter (fun p => decide (p.1 ∉ o.schema.fields)) := by
  rw [UserObject.nameFix]
  rcases hv : dictGet? o.fields "name" with _ | v
  · rfl
  · have hmem : "name" ∈ o.schema.fields := by
      rcases hcase with hc | hc
      · exact hc
      · rw [hv] at hc
        cases hc
    simp only [UserObject.setattr]
    rw [if_pos hmem]
    show (dictUpdate (dictDelete o.fields "name") "name" v).filter
        (fun p => decide (p.1 ∉ o.schema.fields)) = _
    rw [dictUpdate_fresh _ _ _ (keys_dictDelete_not_mem o.fields "name" h),
      List.filter_append, dictDelete_eq_filter o.fields "name" h,
      List.filter_filter]
    have h2 : List.filter (fun p => decide (p.1 ∉ o.schema.fields))
        [("name", v)] = [] := by
      simp [hmem]
    rw [h2, List.append_nil]
    refine List.filter_congr (fun p hp => ?_)
    by_cases h1 : p.1 = "name"
    · simp [h1, hmem]
    · simp [h1]

theorem dictUpdate_filter_false (d : Store) (g : String) (v : PyVal)
    (pred : String × PyVal → Bool) (hfalse : ∀ w, pred (g, w) = false) :
    (dictUpdate d g v).filter pred = d.filter pred := by
  induction d with
  | nil => simp [dictUpdate, hfalse v]
  | cons p d ih =>
    obtain ⟨k, w⟩ := p
    by_cases hk : k = g
    · subst hk
      rw [show dictUpdate ((k, w) :: d) k v = (k, v) :: d from by simp [dictUpdate],
        List.filter_cons_of_neg (by simp [hfalse v]),
        List.filter_cons_of_neg (by simp [hfalse w])]
    · rw [show dictUpdate ((k, w) :: d) g v = (k, w) :: dictUpdate d g v from by
        simp [dictUpdate, hk]]
      cases hp : pred (k, w)
      · rw [List.filter_cons_of_neg (by simp [hp]),
          List.filter_cons_of_neg (by simp [hp]), ih]
      · rw [List.filter_cons_of_pos (by simp [hp]),
          List.filter_cons_of_pos (by simp [hp]), ih]

/-- `Set` never disturbs the non-declared sublist of the field store: a
declared assignment updates a declared entry in place (or appends a declared
key), and any other assignment lands in the plain-attribute namespace. -/
theorem setattr_filter_not_declared (o : UserObject) (g : String) (v : PyVal) :
    (o.setattr g v).fields.filter (fun p => decide (p.1 ∉ o.schema.fields))
      = o.fields.filter (fun p => decide (p.1 ∉ o.schema.fields)) := by
  rw [UserObject.setattr]
  by_cases hmem : g ∈ o.schema.fields
  · rw [if_pos hmem]
    show (dictUpdate o.fields g v).filter _ = _
    exact dictUpdate_filter_false o.fields g v _ (fun w => by simp [hmem])
  · rw [if_neg hmem]

theorem setattr_keys_nodup (o : UserObject) (g : String) (v : PyVal)
    (h : (keys o.fields).Nodup) : (keys (o.setattr g v).fields).Nodup := by
  rw [UserObject.setattr]
  by_cases hmem : g ∈ o.schema.fields
  · rw [if_pos hmem]
    show (keys (dictUpdate o.fields g v)).Nodup
    by_cases hk : g ∈ keys o.fields
    · rw [keys_dictUpdate_mem _ _ _ hk]
      exact h
    · rw [dictUpdate_fresh _ _ _ hk, keys_append]
      refine List.Nodup.append h (by simp) ?_
      intro x hx1 hx2
      simp only [keys_cons, keys_nil, List.mem_singleton] at hx2
      exact hk (hx2 ▸ hx1)
  · rw [if_neg hmem]
    exact h

/-! ## The structure of a raw-constructed record -/
theorem init_no_args (sch : Schema) (defaults : List (String × PyVal))
    (fv? : Option (List PyVal)) (version? : Option PyVal) :
    UserObject.init sch defaults fv? [] version?
      = UserObject.nameFix (UserObject.applyRawValues (UserObject.applySetattrs
          { schema := sch, fields := UserObject.initFields0 sch, attrs := [],
            version := version?.getD sch.version } defaults) fv?) := rfl

theorem map_lookup_zip (ks : List String) (E : List PyVal) (rest : Store)
    (hnd : ks.Nodup) (hE : E.length = ks.length) :
    ks.map (fun f => (f, (dictGet? (ks.zip E ++ rest) f).getD PyVal.none))
      = ks.zip E := by
  induction ks generalizing E rest with
  | nil => simp
  | cons f ks ih =>
    match E, hE with
    | e :: E, hE =>
      simp only [List.zip_cons_cons, List.cons_append, List.map_cons]
      congr 1
      · rw [dictGet?_cons_self]
        rfl
      · have hstep : ∀ g ∈ ks,
            (g, (dictGet? ((f, e) :: (ks.zip E ++ rest)) g).getD PyVal.none)
              = (g, (dictGet? (ks.zip E ++ rest) g).getD PyVal.none) := by
          intro g hg
          rw [dictGet?_cons_ne _ _ _ _ (by
            intro hh
            exact (List.nodup_cons.mp hnd).1 (by rw [hh]; exact hg))]
        rw [List.map_congr_left hstep, ih E rest hnd.of_cons (by simpa using hE)]

/-- The complete description of the field store of a record built from a raw
value list (no extra keyword arguments): declared names carry the raw values
where covered (defaults elsewhere), and the leftovers are exactly the
synthetic `undefined-%i` entries carrying the surplus raw values, in
ascending index order. -/
theorem init_store (sch : Schema) (defaults : List (String × PyVal))
    (vs : List PyVal) (version? : Option PyVal)
    (hnd : sch.fields.Nodup)
    (hu : ∀ i, sch.fields.length ≤ i → i < vs.length →
      undefinedName i ∉ sch.fields) :
    ∃ E : List PyVal,
      E.length = sch.fields.length ∧
      (sch.fields.length ≤ vs.length → E = vs.take sch.fields.length) ∧
      (UserObject.init sch defaults (some vs) [] version?).schema = sch ∧
      (UserObject.init sch defaults (some vs) [] version?).version
        = version?.getD sch.version ∧
      (keys (UserObject.init sch defaults (some vs) [] version?).fields).Nodup ∧
      (UserObject.init sch defaults (some vs) [] version?).fields.filter
          (fun p => decide (p.1 ∉ sch.fields))
        = ((List.range' sch.fields.length (vs.length - sch.fields.length)).map
            undefinedName).zip (vs.drop sch.fields.length) ∧
      sch.fields.map (fun f =>
          (f, (dictGet? (UserObject.init sch defaults (some vs) []
            version?).fields f).getD PyVal.none))
        = sch.fields.zip E := by
  -- stage 1: after set_defaults the store is still keyed by the declared names
  obtain ⟨W1, hW1f, hW1len, hW1sch, hW1ver⟩ := applySetattrs_fields defaults
    { schema := sch, fields := UserObject.initFields0 sch, attrs := [],
      version := version?.getD sch.version } sch.fields rfl
    (List.replicate sch.fields.length PyVal.none) (by simp)
    (initFields0_eq sch hnd)
  have ho1sch : (UserObject.applySetattrs
      { schema := sch, fields := UserObject.initFields0 sch, attrs := [],
        version := version?.getD sch.version } defaults).schema = sch := hW1sch
  -- facts about the synthetic names
  have husnd : ((List.range' sch.fields.length
      (vs.length - sch.fields.length)).map undefinedName).Nodup :=
    (List.nodup_range' _ _).map undefinedName_injective
  have husdisj : ∀ u ∈ (List.range' sch.fields.length
      (vs.length - sch.fields.length)).map undefinedName, u ∉ sch.fields := by
    intro u hu'
    obtain ⟨i, hi, rfl⟩ := List.mem_map.mp hu'
    have hi' := List.mem_range'_1.mp hi
    exact hu i hi'.1 (by omega)
  have hElen : (vs.take sch.fields.length ++ W1.drop vs.length).length
      = sch.fields.length := by
    simp only [List.length_append, List.length_take, List.length_drop, hW1len]
    omega
  -- stage 2: the raw-value update
  have ho2fields : (UserObject.applyRawValues (UserObject.applySetattrs
      { schema := sch, fields := UserObject.initFields0 sch, attrs := [],
        version := version?.getD sch.version } defaults) (some vs)).fields
      = sch.fields.zip (vs.take sch.fields.length ++ W1.drop vs.length)
        ++ ((List.range' sch.fields.length
            (vs.length - sch.fields.length)).map undefinedName).zip
          (vs.drop sch.fields.length) := by
    cases vs with
    | nil =>
      show (UserObject.applySetattrs _ defaults).fields = _
      rw [hW1f]
      simp [List.drop_eq_nil_of_le (le_of_eq hW1len)]
    | cons v vs' =>
      show dictUpdates (UserObject.applySetattrs _ defaults).fields
        ((UserObject.definedFields (UserObject.applySetattrs _ defaults).schema
          (v :: vs').length).zip (v :: vs')) = _
      rw [hW1f, ho1sch]
      exact dictUpdates_zip sch.fields _ W1 (v :: vs') hnd husnd husdisj hW1len
  have ho2sch : (UserObject.applyRawValues (UserObject.applySetattrs
      { schema := sch, fields := UserObject.initFields0 sch, attrs := [],
        version := version?.getD sch.version } defaults) (some vs)).schema
      = sch := by
    cases vs with
    | nil => exact ho1sch
    | cons v vs' => exact ho1sch
  have ho2ver : (UserObject.applyRawValues (UserObject.applySetattrs
      { schema := sch, fields := UserObject.initFields0 sch, attrs := [],
        version := version?.getD sch.version } defaults) (some vs)).version
      = version?.getD sch.version := by
    cases vs with
    | nil => exact hW1ver
    | cons v vs' => exact hW1ver
  -- key-list facts about the stage-2 store
  have huslen : ((List.range' sch.fields.length
      (vs.length - sch.fields.length)).map undefinedName).length
      = (vs.drop sch.fields.length).length := by
    simp [List.length_range']
  have hkeyso2 : keys (UserObject.applyRawValues (UserObject.applySetattrs
      { schema := sch, fields := UserObject.initFields0 sch, attrs := [],
        version := version?.getD sch.version } defaults) (some vs)).fields
      = sch.fields ++ (List.range' sch.fields.length
          (vs.length - sch.fields.length)).map undefinedName := by
    rw [ho2fields, keys_append, keys_zip _ _ (le_of_eq hElen.symm),
      keys_zip _ _ (le_of_eq huslen)]
  have hkeyso2nd : (keys (UserObject.applyRawValues (UserObject.applySetattrs
      { schema := sch, fields := UserObject.initFields0 sch, attrs := [],
        version := version?.getD sch.version } defaults) (some vs)).fields).Nodup := by
    rw [hkeyso2]
    exact List.nodup_append.mpr ⟨hnd, husnd, fun a ha hb => husdisj a hb ha⟩
  have hcase : "name" ∈ (UserObject.applyRawValues (UserObject.applySetattrs
      { schema := sch, fields := UserObject.initFields0 sch, attrs := [],
        version := version?.getD sch.version } defaults) (some vs)).schema.fields
      ∨ dictGet? (UserObject.applyRawValues (UserObject.applySetattrs
        { schema := sch, fields := UserObject.initFields0 sch, attrs := [],
          version := version?.getD sch.version } defaults) (some vs)).fields "name"
        = Option.none := by
    by_cases hname : "name" ∈ sch.fields
    · left
      rw [ho2sch]
      exact hname
    · right
      rw [dictGet?_eq_none_iff, hkeyso2]
      intro hmem
      rcases List.mem_append.mp hmem with hmem | hmem
      · exact hname hmem
      · obtain ⟨i, _, hi⟩ := List.mem_map.mp hmem
        exact undefinedName_ne_name i hi
  -- the filtered (non-declared) sublist of the stage-2 store
  have hfiltero2 : (UserObject.applyRawValues (UserObject.applySetattrs
      { schema := sch, fields := UserObject.initFields0 sch, attrs := [],
        version := version?.getD sch.version } defaults) (some vs)).fields.filter
        (fun p => decide (p.1 ∉ sch.fields))
      = ((List.range' sch.fields.length
          (vs.length - sch.fields.length)).map undefinedName).zip
        (vs.drop sch.fields.length) := by
    rw [ho2fields, List.filter_append]
    have h1 : (sch.fields.zip (vs.take sch.fields.length ++ W1.drop
        vs.length)).filter (fun p => decide (p.1 ∉ sch.fields)) = [] := by
      refine List.filter_eq_nil.mpr (fun p hp => ?_)
      have := (List.of_mem_zip hp).1
      simp [this]
    have h2 : (((List.range' sch.fields.length
        (vs.length - sch.fields.length)).map undefinedName).zip
          (vs.drop sch.fields.length)).filter
        (fun p => decide (p.1 ∉ sch.fields))
        = ((List.range' sch.fields.length
          (vs.length - sch.fields.length)).map undefinedName).zip
          (vs.drop sch.fields.length) := by
      refine List.filter_eq_self.mpr (fun p hp => ?_)
      have := (List.of_mem_zip hp).1
      simp [husdisj p.1 this]
    rw [h1, h2, List.nil_append]
  refine ⟨vs.take sch.fields.length ++ W1.drop vs.length, hElen, ?_, ?_, ?_, ?_, ?_, ?_⟩
  · -- covered prefix when there are at least as many raw values as fields
    intro hkn
    rw [List.drop_eq_nil_of_le (by omega : W1.length ≤ vs.length), List.append_nil]
  · rw [init_no_args, nameFix_schema, ho2sch]
  · rw [init_no_args, nameFix_version, ho2ver]
  · rw [init_no_args]
    exact nameFix_keys_nodup _ hkeyso2nd
  · rw [init_no_args]
    have := nameFix_filter_not_declared _ hkeyso2nd hcase
    rw [show (UserObject.applyRawValues (UserObject.applySetattrs
        { schema := sch, fields := UserObject.initFields0 sch, attrs := [],
          version := version?.getD sch.version } defaults)
        (some vs)).schema.fields = sch.fields from by rw [ho2sch]] at this
    rw [this, hfiltero2]
  · rw [init_no_args]
    have hlook : ∀ f ∈ sch.fields,
        (f, (dictGet? (UserObject.nameFix (UserObject.applyRawValues
          (UserObject.applySetattrs
            { schema := sch, fields := UserObject.initFields0 sch, attrs := [],
              version := version?.getD sch.version } defaults)
          (some vs))).fields f).getD PyVal.none)
        = (f, (dictGet? (UserObject.applyRawValues (UserObject.applySetattrs
            { schema := sch, fields := UserObject.initFields0 sch, attrs := [],
              version := version?.getD sch.version } defaults)
          (some vs)).fields f).getD PyVal.none) := by
      intro f hf
      rw [nameFix_dictGet?]
      by_cases hfname : f = "name"
      · right
        rw [ho2sch]
        exact hfname ▸ hf
      · exact Or.inl hfname
    rw [List.map_congr_left hlook, ho2fields]
    exact map_lookup_zip sch.fields _ _ hnd hElen

theorem pairwise_le_range'_intCast (s m : Nat) :
    List.Pairwise (· ≤ ·)
      (List.map (fun i => ((i : Nat) : Int)) (List.range' s m)) := by
  rw [List.pairwise_map]
  refine (List.pairwise_lt_range' s m).imp ?_
  intro a b h
  exact_mod_cast le_of_lt h

theorem map_parse_zip (R : List Nat) (D : List PyVal)
    (hlen : (R.map undefinedName).length = D.length) :
    ((R.map undefinedName).zip D).map (fun p => parseSuffix p.1)
      = List.map some (List.map (fun i => ((i : Nat) : Int)) R) := by
  induction R generalizing D with
  | nil => simp
  | cons i R ih =>
    cases D with
    | nil => simp at hlen
    | cons d D =>
      simp only [List.map_cons, List.zip_cons_cons]
      congr 1
      · exact parseSuffix_undefinedName i
      · exact ih D (by simpa using hlen)

/-- The ordered field values of a raw-constructed record: exactly the raw list
when it covers the declared fields, and the declared count otherwise (default
values filling the uncovered tail). -/
theorem init_field_values (sch : Schema) (defaults : List (String × PyVal))
    (vs : List PyVal) (version? : Option PyVal)
    (hnd : sch.fields.Nodup)
    (hu : ∀ i, sch.fields.length ≤ i → i < vs.length →
      undefinedName i ∉ sch.fields) :
    ∃ fvs, (UserObject.init sch defaults (some vs) [] version?).field_values
        = Except.ok fvs ∧
      fvs.length = max vs.length sch.fields.length ∧
      (sch.fields.length ≤ vs.length → fvs = vs) ∧
      (UserObject.init sch defaults (some vs) [] version?).version
        = version?.getD sch.version ∧
      (UserObject.init sch defaults (some vs) [] version?).schema = sch := by
  obtain ⟨E, hElen, hEtake, hsch, hver, hknd, hfilter, hdecl⟩ :=
    init_store sch defaults vs version? hnd hu
  have hfnd : (UserObject.init sch defaults (some vs) []
      version?).schema.fields.Nodup := by
    rw [hsch]
    exact hnd
  have hschfields : (UserObject.init sch defaults (some vs) []
      version?).schema.fields = sch.fields := by rw [hsch]
  have hfilter' : (UserObject.init sch defaults (some vs) [] version?).fields.filter
      (fun p => decide (p.1 ∉ (UserObject.init sch defaults (some vs) []
        version?).schema.fields))
      = ((List.range' sch.fields.length (vs.length - sch.fields.length)).map
          undefinedName).zip (vs.drop sch.fields.length) := by
    simp only [hschfields]
    exact hfilter
  have huslen : ((List.range' sch.fields.length
      (vs.length - sch.fields.length)).map undefinedName).length
      = (vs.drop sch.fields.length).length := by
    simp [List.length_range']
  have hparse : ((UserObject.init sch defaults (some vs) [] version?).fields.filter
      (fun p => decide (p.1 ∉ (UserObject.init sch defaults (some vs) []
        version?).schema.fields))).map (fun p => parseSuffix p.1)
      = List.map some (List.map (fun i => ((i : Nat) : Int))
          (List.range' sch.fields.length (vs.length - sch.fields.length))) := by
    rw [hfilter']
    exact map_parse_zip _ _ huslen
  have hof := ordered_fields_char
    (UserObject.init sch defaults (some vs) [] version?)
    (List.map (fun i => ((i : Nat) : Int))
      (List.range' sch.fields.length (vs.length - sch.fields.length)))
    hknd hfnd hparse (pairwise_le_range'_intCast _ _)
  refine ⟨E ++ vs.drop sch.fields.length, ?_, ?_, ?_, hver, hsch⟩
  · rw [UserObject.field_values, hof]
    show Except.ok (List.map Prod.snd _) = _
    congr 1
    rw [List.map_append]
    congr 1
    · rw [show (UserObject.init sch defaults (some vs) []
          version?).schema.fields = sch.fields from by rw [hsch], hdecl]
      exact List.map_snd_zip _ _ (le_of_eq hElen)
    · rw [hfilter']
      exact List.map_snd_zip _ _ (le_of_eq huslen.symm)
  · simp only [List.length_append, hElen, List.length_drop]
    omega
  · intro hkn
    rw [hEtake hkn, List.take_append_drop]

/-- With the default (identity) per-field encode hook, `to_construct`
packages the ordered field values unchanged. -/
theorem to_construct_id (o : UserObject) (fvs : List PyVal)
    (h : o.field_values = Except.ok fvs) :
    o.to_construct (fun _ v => v) = Except.ok
      { classID := o.schema.className, field_values := fvs,
        length := fvs.length, version := o.version } := by
  rw [UserObject.to_construct, h]
  have hmap : fvs.enum.map (fun p =>
      match o.schema.fields.get? p.1 with
      | some f => (fun _ v => v) f p.2
      | Option.none => p.2) = fvs := by
    have hpt : ∀ p ∈ fvs.enum, (match o.schema.fields.get? p.1 with
        | some f => (fun (_ : String) (v : PyVal) => v) f p.2
        | Option.none => p.2) = Prod.snd p := by
      intro p _
      rcases o.schema.fields.get? p.1 <;> rfl
    rw [List.map_congr_left hpt, List.enum_map_snd]
  show Except.ok _ = _
  rw [hmap]

/-- **C1.** For every record schema, with the default identity per-field
encode and decode hooks, rebuilding a record from the
`(classTag, orderedValues, version)` container produced by `to_construct`
via the raw-construction path `from_construct` yields a record whose
ordered field values and version equal the original record's — covering
records with zero extra fields (raw list no longer than the declared field
list) and with any number `N` of extra `undefined-i` fields (raw list
exceeding it by `N`). -/
theorem C1_wire_round_trip (sch : Schema) (defaults : List (String × PyVal))
    (vs : List PyVal) (version? : Option PyVal)
    (hnd : sch.fields.Nodup)
    (hu : ∀ i, sch.fields.length ≤ i → i < vs.length →
      undefinedName i ∉ sch.fields) :
    ∃ fvs c,
      (UserObject.init sch defaults (some vs) [] version?).field_values
        = Except.ok fvs ∧
      (UserObject.init sch defaults (some vs) [] version?).to_construct
          (fun _ v => v) = Except.ok c ∧
      c.classID = sch.className ∧
      c.field_values = fvs ∧
      c.version = (UserObject.init sch defaults (some vs) [] version?).version ∧
      (UserObject.from_construct sch defaults c).field_values = Except.ok fvs ∧
      (UserObject.from_construct sch defaults c).version
        = (UserObject.init sch defaults (some vs) [] version?).version := by
  obtain ⟨fvs, hfv, hlen, htake, hver, hsch⟩ :=
    init_field_values sch defaults vs version? hnd hu
  have hu' : ∀ i, sch.fields.length ≤ i → i < fvs.length →
      undefinedName i ∉ sch.fields := by
    intro i h1 h2
    rw [hlen] at h2
    exact hu i h1 (by omega)
  obtain ⟨fvs2, hfv2, hlen2, htake2, hver2, hsch2⟩ :=
    init_field_values sch defaults fvs
      (some (UserObject.init sch defaults (some vs) [] version?).version) hnd hu'
  have hcover : sch.fields.length ≤ fvs.length := by
    rw [hlen]
    omega
  have hfvs2 : fvs2 = fvs := htake2 hcover
  refine ⟨fvs,
    { classID := sch.className, field_values := fvs, length := fvs.length,
      version := (UserObject.init sch defaults (some vs) [] version?).version },
    hfv, ?_, rfl, rfl, rfl, ?_, ?_⟩
  · have := to_construct_id (UserObject.init sch defaults (some vs) [] version?)
      fvs hfv
    rw [this, hsch]
  · show (UserObject.init sch defaults (some fvs) [] _).field_values = _
    rw [hfv2, hfvs2]
  · show (UserObject.init sch defaults (some fvs) [] _).version = _
    rw [hver2, hver]
    rfl

/-- Witness for C1: the `ImageMedia`-like two-field schema with one extra
raw value (and, via `vs.take 2`, the zero-extra case is the same theorem at a
shorter list). -/
theorem C1_wire_round_trip_witness :
    (["name", "form"] : List String).Nodup ∧
    (∀ i, 2 ≤ i → i < 3 →
      undefinedName i ∉ (["name", "form"] : List String)) ∧
    (∃ fvs c,
      (UserObject.init ⟨"ImageMedia", ["name", "form"], PyVal.int 4⟩
          [("form", PyVal.int 1)]
          (some [PyVal.str "a", PyVal.str "b", PyVal.int 7]) []
          Option.none).field_values = Except.ok fvs ∧
      (UserObject.init ⟨"ImageMedia", ["name", "form"], PyVal.int 4⟩
          [("form", PyVal.int 1)]
          (some [PyVal.str "a", PyVal.str "b", PyVal.int 7]) []
          Option.none).to_construct (fun _ v => v) = Except.ok c ∧
      c.classID = "ImageMedia" ∧
      c.field_values = fvs ∧
      c.version = (UserObject.init ⟨"ImageMedia", ["name", "form"], PyVal.int 4⟩
          [("form", PyVal.int 1)]
          (some [PyVal.str "a", PyVal.str "b", PyVal.int 7]) []
          Option.none).version ∧
      (UserObject.from_construct ⟨"ImageMedia", ["name", "form"], PyVal.int 4⟩
          [("form", PyVal.int 1)] c).field_values = Except.ok fvs ∧
      (UserObject.from_construct ⟨"ImageMedia", ["name", "form"], PyVal.int 4⟩
          [("form", PyVal.int 1)] c).version
        = (UserObject.init ⟨"ImageMedia", ["name", "form"], PyVal.int 4⟩
          [("form", PyVal.int 1)]
          (some [PyVal.str "a", PyVal.str "b", PyVal.int 7]) []
          Option.none).version) := by
  refine ⟨by decide, ?_, ?_⟩
  · intro i h1 h2
    interval_cases i
    decide
  · exact C1_wire_round_trip ⟨"ImageMedia", ["name", "form"], PyVal.int 4⟩
      [("form", PyVal.int 1)] [PyVal.str "a", PyVal.str "b", PyVal.int 7]
      Option.none (by decide) (by
        intro i h1 h2
        have h1' : 2 ≤ i := h1
        have h2' : i < 3 := h2
        interval_cases i
        decide)

/-- Folding any sequence of `Set` (attribute assignment) operations over a
record preserves its schema, the non-declared sublist of its field store and
duplicate-freeness of its keys. -/
theorem foldl_setattr_props (assigns : List (String × PyVal)) (o : UserObject) :
    (assigns.foldl (fun o p => o.setattr p.1 p.2) o).schema = o.schema ∧
    (assigns.foldl (fun o p => o.setattr p.1 p.2) o).fields.filter
        (fun p => decide (p.1 ∉ o.schema.fields))
      = o.fields.filter (fun p => decide (p.1 ∉ o.schema.fields)) ∧
    ((keys o.fields).Nodup →
      (keys (assigns.foldl (fun o p => o.setattr p.1 p.2) o).fields).Nodup) := by
  induction assigns generalizing o with
  | nil => exact ⟨rfl, rfl, fun h => h⟩
  | cons q assigns ih =>
    obtain ⟨h1, h2, h3⟩ := ih (o.setattr q.1 q.2)
    have hstep : (q :: assigns).foldl (fun o p => o.setattr p.1 p.2) o
        = assigns.foldl (fun o p => o.setattr p.1 p.2) (o.setattr q.1 q.2) := rfl
    rw [hstep]
    have hs : (o.setattr q.1 q.2).schema = o.schema := setattr_schema o q.1 q.2
    refine ⟨h1.trans hs, ?_, fun h => h3 (setattr_keys_nodup o q.1 q.2 h)⟩
    rw [show (o.setattr q.1 q.2).schema.fields = o.schema.fields from by rw [hs]]
      at h2
    exact h2.trans (setattr_filter_not_declared o q.1 q.2)

/-- **C2.** A record built from raw values covering the declared fields
`f1..fk` plus three extra values has `ordered_fields` naming `f1..fk` in
schema order followed by the three synthetic extras in ascending index
order, and this name sequence is unchanged by any subsequent sequence of
`Set` assignments, in any order. -/
theorem C2_ordered_fields_order (sch : Schema) (defaults : List (String × PyVal))
    (vs : List PyVal) (version? : Option PyVal)
    (assigns : List (String × PyVal))
    (hnd : sch.fields.Nodup)
    (hn : vs.length = sch.fields.length + 3)
    (hu : ∀ i, sch.fields.length ≤ i → i < vs.length →
      undefinedName i ∉ sch.fields) :
    ∃ l, (assigns.foldl (fun o p => o.setattr p.1 p.2)
          (UserObject.init sch defaults (some vs) [] version?)).ordered_fields
        = Except.ok l ∧
      l.map Prod.fst = sch.fields ++
        [undefinedName sch.fields.length, undefinedName (sch.fields.length + 1),
          undefinedName (sch.fields.length + 2)] := by
  obtain ⟨E, hElen, hEtake, hsch, hver, hknd, hfilter, hdecl⟩ :=
    init_store sch defaults vs version? hnd hu
  obtain ⟨hfold_sch, hfold_filter, hfold_nd⟩ := foldl_setattr_props assigns
    (UserObject.init sch defaults (some vs) [] version?)
  have hsch2 : (assigns.foldl (fun o p => o.setattr p.1 p.2)
      (UserObject.init sch defaults (some vs) [] version?)).schema = sch :=
    hfold_sch.trans hsch
  have hflds : (UserObject.init sch defaults (some vs) []
      version?).schema.fields = sch.fields := by rw [hsch]
  rw [hflds] at hfold_filter
  have hextras : (assigns.foldl (fun o p => o.setattr p.1 p.2)
      (UserObject.init sch defaults (some vs) [] version?)).fields.filter
        (fun p => decide (p.1 ∉ sch.fields))
      = ((List.range' sch.fields.length (vs.length - sch.fields.length)).map
          undefinedName).zip (vs.drop sch.fields.length) :=
    hfold_filter.trans hfilter
  have huslen : ((List.range' sch.fields.length
      (vs.length - sch.fields.length)).map undefinedName).length
      = (vs.drop sch.fields.length).length := by
    simp [List.length_range']
  have hfoldflds : (assigns.foldl (fun o p => o.setattr p.1 p.2)
      (UserObject.init sch defaults (some vs) [] version?)).schema.fields
      = sch.fields := by rw [hsch2]
  have hparse : ((assigns.foldl (fun o p => o.setattr p.1 p.2)
      (UserObject.init sch defaults (some vs) [] version?)).fields.filter
        (fun p => decide (p.1 ∉ (assigns.foldl (fun o p => o.setattr p.1 p.2)
          (UserObject.init sch defaults (some vs) []
            version?)).schema.fields))).map (fun p => parseSuffix p.1)
      = List.map some (List.map (fun i => ((i : Nat) : Int))
          (List.range' sch.fields.length
            (vs.length - sch.fields.length))) := by
    simp only [hfoldflds]
    rw [hextras]
    exact map_parse_zip _ _ huslen
  have hof := ordered_fields_char (assigns.foldl (fun o p => o.setattr p.1 p.2)
      (UserObject.init sch defaults (some vs) [] version?))
    (List.map (fun i => ((i : Nat) : Int))
      (List.range' sch.fields.length (vs.length - sch.fields.length)))
    (hfold_nd hknd) (by rw [hfoldflds]; exact hnd) hparse
    (pairwise_le_range'_intCast _ _)
  refine ⟨_, hof, ?_⟩
  rw [List.map_append, List.map_map]
  have h1 : (Prod.fst ∘ fun f => (f, (dictGet? (assigns.foldl
      (fun o p => o.setattr p.1 p.2) (UserObject.init sch defaults (some vs) []
        version?)).fields f).getD PyVal.none))
      = fun (f : String) => f := rfl
  rw [h1, List.map_id', hfoldflds]
  congr 1
  rw [hextras, List.map_fst_zip _ _ (le_of_eq huslen),
    show vs.length - sch.fields.length = 3 from by omega]
  rfl

/-- Witness for C2: two declared fields, five raw values, and a subsequent
assignment to each category of name (declared, synthetic extra, fresh). -/
theorem C2_ordered_fields_order_witness :
    (["name", "form"] : List String).Nodup ∧
    [PyVal.int 1, PyVal.int 2, PyVal.int 3, PyVal.int 4,
      PyVal.int 5].length = (["name", "form"] : List String).length + 3 ∧
    (∀ i, 2 ≤ i → i < 5 →
      undefinedName i ∉ (["name", "form"] : List String)) ∧
    ∃ l, ([( "form", PyVal.int 9), ("undefined-3", PyVal.int 8),
          ("other", PyVal.int 7)].foldl (fun o p => o.setattr p.1 p.2)
          (UserObject.init ⟨"ImageMedia", ["name", "form"], PyVal.int 4⟩ []
            (some [PyVal.int 1, PyVal.int 2, PyVal.int 3, PyVal.int 4,
              PyVal.int 5]) [] Option.none)).ordered_fields
        = Except.ok l ∧
      l.map Prod.fst = ["name", "form"] ++
        [undefinedName 2, undefinedName 3, undefinedName 4] := by
  refine ⟨by decide, by decide, ?_, ?_⟩
  · intro i h1 h2
    interval_cases i <;> decide
  · exact C2_ordered_fields_order ⟨"ImageMedia", ["name", "form"], PyVal.int 4⟩
      [] [PyVal.int 1, PyVal.int 2, PyVal.int 3, PyVal.int 4, PyVal.int 5]
      Option.none
      [("form", PyVal.int 9), ("undefined-3", PyVal.int 8), ("other", PyVal.int 7)]
      (by decide) (by decide)
      (by
        intro i h1 h2
        have h1' : 2 ≤ i := h1
        have h2' : i < 5 := h2
        interval_cases i <;> decide)

theorem mapSortKeys_isSome (extras : List (String × PyVal))
    (h : ∀ p ∈ extras, (parseSuffix p.1).isSome) :
    ∃ keyed, UserObject.mapSortKeys extras = Except.ok keyed := by
  induction extras with
  | nil => exact ⟨[], rfl⟩
  | cons p extras ih =>
    obtain ⟨keyed, hk⟩ := ih (fun q hq => h q (List.mem_cons_of_mem _ hq))
    rcases hp : parseSuffix p.1 with _ | i
    · have := h p (List.mem_cons_self _ _)
      rw [hp] at this
      cases this
    · exact ⟨(i, p) :: keyed, by rw [UserObject.mapSortKeys, UserObject.sortKey,
        hp, hk]⟩

theorem ordered_fields_ok_of (o : UserObject) (A B : List (String × PyVal))
    (keyed : List (Int × (String × PyVal)))
    (h1 : UserObject.popLoop o.fields o.schema.fields o.fields = Except.ok (A, B))
    (h2 : UserObject.mapSortKeys B = Except.ok keyed) :
    ∃ l, o.ordered_fields = Except.ok l := by
  have hres : o.ordered_fields = Except.ok (A ++ (keyed.insertionSort
      (fun (a b : Int × (String × PyVal)) => a.1 ≤ b.1)).map Prod.snd) := by
    rw [UserObject.ordered_fields, h1]
    show (match UserObject.mapSortKeys B with
      | Except.error e => Except.error e
      | Except.ok keyed =>
        Except.ok (A ++ (keyed.insertionSort
          (fun (a b : Int × (String × PyVal)) => a.1 ≤ b.1)).map Prod.snd)) = _
    rw [h2]
  exact ⟨_, hres⟩

/-- **C9.** If the field store holds a non-declared entry whose name does not
parse to an integer suffix (e.g. a named constructor override), then
`ordered_fields` fails with the malformed-name error for such a field; if
every non-declared entry parses, `ordered_fields` succeeds. -/
theorem C9_malformed_extra_name (o : UserObject)
    (hknd : (keys o.fields).Nodup) (hfnd : o.schema.fields.Nodup) :
    ((∃ p ∈ o.fields, p.1 ∉ o.schema.fields ∧ parseSuffix p.1 = Option.none) →
      ∃ f, parseSuffix f = Option.none ∧
        o.ordered_fields
          = Except.error ("ValueError: invalid field name " ++ f)) ∧
    ((∀ p ∈ o.fields, p.1 ∉ o.schema.fields → (parseSuffix p.1).isSome) →
      ∃ l, o.ordered_fields = Except.ok l) := by
  have hpl := popLoop_main o.fields o.schema.fields hknd hfnd
  constructor
  · intro hbad
    obtain ⟨p, hp, hnotd, hnone⟩ := hbad
    have hmem : p ∈ o.fields.filter
        (fun q => decide (q.1 ∉ o.schema.fields)) :=
      List.mem_filter.mpr ⟨hp, by simp [hnotd]⟩
    obtain ⟨f, hf, herr⟩ := mapSortKeys_error _ ⟨p, hmem, hnone⟩
    exact ⟨f, hf, ordered_fields_error_of o _ _ _ hpl herr⟩
  · intro hgood
    obtain ⟨keyed, hk⟩ := mapSortKeys_isSome
      (o.fields.filter (fun q => decide (q.1 ∉ o.schema.fields)))
      (fun q hq => by
        have hm := List.mem_filter.mp hq
        exact hgood q hm.1 (by simpa using hm.2))
    exact ordered_fields_ok_of o _ _ keyed hpl hk

/-- Witness for C9: a record whose constructor received the named override
`foo` (not declared, not parsable) fails, and one whose extras are all
synthetic succeeds. -/
theorem C9_malformed_extra_name_witness :
    ((keys (UserObject.init ⟨"ImageMedia", ["name", "form"], PyVal.int 4⟩ []
      Option.none [("foo", PyVal.int 3)] Option.none).fields).Nodup) ∧
    (∃ p ∈ (UserObject.init ⟨"ImageMedia", ["name", "form"], PyVal.int 4⟩ []
        Option.none [("foo", PyVal.int 3)] Option.none).fields,
      p.1 ∉ ["name", "form"] ∧ parseSuffix p.1 = Option.none) ∧
    (∃ f, parseSuffix f = Option.none ∧
      (UserObject.init ⟨"ImageMedia", ["name", "form"], PyVal.int 4⟩ []
        Option.none [("foo", PyVal.int 3)] Option.none).ordered_fields
        = Except.error ("ValueError: invalid field name " ++ f)) ∧
    (∃ l, (UserObject.init ⟨"ImageMedia", ["name", "form"], PyVal.int 4⟩ []
      (some [PyVal.int 1, PyVal.int 2, PyVal.int 3]) []
      Option.none).ordered_fields = Except.ok l) := by
  refine ⟨by decide, ⟨("foo", PyVal.int 3), by decide⟩, ?_, ?_⟩
  · exact (C9_malformed_extra_name
      (UserObject.init ⟨"ImageMedia", ["name", "form"], PyVal.int 4⟩ []
        Option.none [("foo", PyVal.int 3)] Option.none)
      (by decide) (by decide)).1 ⟨("foo", PyVal.int 3), by decide⟩
  · exact (C9_malformed_extra_name
      (UserObject.init ⟨"ImageMedia", ["name", "form"], PyVal.int 4⟩ []
        (some [PyVal.int 1, PyVal.int 2, PyVal.int 3]) [] Option.none)
      (by decide) (by decide)).2 (by decide)

/-! ## C10: declared fields are always present after construction -/
theorem keys_dictUpdate_superset (d : Store) (g : String) (v : PyVal)
    (f : String) (h : f ∈ keys d) : f ∈ keys (dictUpdate d g v) := by
  by_cases hg : g ∈ keys d
  · rw [keys_dictUpdate_mem _ _ _ hg]
    exact h
  · rw [dictUpdate_fresh _ _ _ hg, keys_append]
    exact List.mem_append_left _ h

theorem keys_dictUpdates_superset (d : Store) (kvs : List (String × PyVal))
    (f : String) (h : f ∈ keys d) : f ∈ keys (dictUpdates d kvs) := by
  induction kvs generalizing d with
  | nil => exact h
  | cons q kvs ih =>
    show f ∈ keys (dictUpdates (dictUpdate d q.1 q.2) kvs)
    exact ih _ (keys_dictUpdate_superset d q.1 q.2 f h)

theorem mem_keys_foldl_update (fs : List String) (d : Store) (f : String)
    (h : f ∈ fs ∨ f ∈ keys d) :
    f ∈ keys (fs.foldl (fun d f => dictUpdate d f PyVal.none) d) := by
  induction fs generalizing d with
  | nil =>
    rcases h with h | h
    · simp at h
    · exact h
  | cons g fs ih =>
    show f ∈ keys (fs.foldl (fun d f => dictUpdate d f PyVal.none)
      (dictUpdate d g PyVal.none))
    rcases h with h | h
    · rcases List.mem_cons.mp h with rfl | h
      · refine ih _ (Or.inr ?_)
        rw [← dictGet?_isSome_iff, dictGet?_dictUpdate_self]
        rfl
      · exact ih _ (Or.inl h)
    · exact ih _ (Or.inr (keys_dictUpdate_superset d g PyVal.none f h))

theorem setattr_keys_superset (o : UserObject) (g : String) (v : PyVal)
    (f : String) (h : f ∈ keys o.fields) : f ∈ keys (o.setattr g v).fields := by
  simp only [UserObject.setattr]
  split
  · exact keys_dictUpdate_superset o.fields g v f h
  · exact h

theorem applySetattrs_keys_superset (defaults : List (String × PyVal))
    (o : UserObject) (f : String) (h : f ∈ keys o.fields) :
    f ∈ keys (o.applySetattrs defaults).fields := by
  induction defaults generalizing o with
  | nil => exact h
  | cons q defaults ih =>
    show f ∈ keys ((o.setattr q.1 q.2).applySetattrs defaults).fields
    exact ih _ (setattr_keys_superset o q.1 q.2 f h)

theorem applyRawValues_keys_superset (o : UserObject)
    (fv? : Option (List PyVal)) (f : String) (h : f ∈ keys o.fields) :
    f ∈ keys (o.applyRawValues fv?).fields := by
  rcases fv? with _ | vs
  · exact h
  · rcases vs with _ | ⟨v, vs⟩
    · exact h
    · exact keys_dictUpdates_superset o.fields _ f h

theorem mem_keys_dictDelete (d : Store) (k f : String) (hne : f ≠ k)
    (h : f ∈ keys d) : f ∈ keys (dictDelete d k) := by
  induction d with
  | nil => simp at h
  | cons p d ih =>
    obtain ⟨k0, v0⟩ := p
    by_cases hk : k0 = k
    · subst hk
      rw [show dictDelete ((k0, v0) :: d) k0 = d from by simp [dictDelete]]
      rcases List.mem_cons.mp h with h | h
      · exact absurd h hne
      · exact h
    · rw [show dictDelete ((k0, v0) :: d) k = (k0, v0) :: dictDelete d k from by
        simp [dictDelete, hk]]
      rcases List.mem_cons.mp h with h | h
      · exact h ▸ List.mem_cons_self _ _
      · exact List.mem_cons_of_mem _ (ih h)

theorem nameFix_keys_superset (o : UserObject) (f : String)
    (hf : f ∈ o.schema.fields) (h : f ∈ keys o.fields) :
    f ∈ keys (UserObject.nameFix o).fields := by
  rw [UserObject.nameFix]
  rcases hv : dictGet? o.fields "name" with _ | v
  · exact h
  · simp only [UserObject.setattr]
    by_cases hmem : "name" ∈ o.schema.fields
    · rw [if_pos hmem]
      show f ∈ keys (dictUpdate (dictDelete o.fields "name") "name" v)
      by_cases hfname : f = "name"
      · subst hfname
        rw [← dictGet?_isSome_iff, dictGet?_dictUpdate_self]
        rfl
      · exact keys_dictUpdate_superset _ _ _ f
          (mem_keys_dictDelete o.fields "name" f hfname h)
    · rw [if_neg hmem]
      have hfname : f ≠ "name" := fun hh => hmem (hh ▸ hf)
      exact mem_keys_dictDelete o.fields "name" f hfname h

theorem init_eq_full (sch : Schema) (defaults : List (String × PyVal))
    (fv? : Option (List PyVal)) (args : List (String × PyVal))
    (version? : Option PyVal) :
    UserObject.init sch defaults fv? args version?
      = UserObject.nameFix
        { UserObject.applyRawValues (UserObject.applySetattrs
            { schema := sch, fields := UserObject.initFields0 sch, attrs := [],
              version := version?.getD sch.version } defaults) fv? with
          fields := dictUpdates (UserObject.applyRawValues
            (UserObject.applySetattrs
              { schema := sch, fields := UserObject.initFields0 sch, attrs := [],
                version := version?.getD sch.version } defaults) fv?).fields
            args } := rfl

theorem applyRawValues_schema (o : UserObject) (fv? : Option (List PyVal)) :
    (o.applyRawValues fv?).schema = o.schema := by
  rcases fv? with _ | vs
  · rfl
  · rcases vs with _ | ⟨v, vs⟩ <;> rfl

theorem applySetattrs_schema (defaults : List (String × PyVal)) (o : UserObject) :
    (o.applySetattrs defaults).schema = o.schema := by
  induction defaults generalizing o with
  | nil => rfl
  | cons q defaults ih =>
    show ((o.setattr q.1 q.2).applySetattrs defaults).schema = _
    rw [ih, setattr_schema]

/-- **C10.** After any construction — raw values, named values, or both —
every declared field name is a key of the field store, so `Get` on a
declared name succeeds; moreover, with a raw value list shorter than the
declared field list, the uncovered declared fields hold exactly the values
that a purely named (default) construction gives them, rather than being
absent. -/
theorem C10_declared_fields_present (sch : Schema)
    (defaults : List (String × PyVal)) (fv? : Option (List PyVal))
    (args : List (String × PyVal)) (vs : List PyVal) (version? : Option PyVal)
    (hnd : sch.fields.Nodup) :
    (∀ f ∈ sch.fields, ∃ v,
      (UserObject.init sch defaults fv? args version?).getattr f
        = Except.ok v) ∧
    (∀ (i : Nat) (hi : i < sch.fields.length), vs.length ≤ i →
      dictGet? (UserObject.init sch defaults (some vs) [] version?).fields
          (sch.fields.get ⟨i, hi⟩)
        = dictGet? (UserObject.init sch defaults Option.none []
            version?).fields (sch.fields.get ⟨i, hi⟩)) := by
  constructor
  · intro f hf
    -- the declared key survives every construction stage
    have h0 : f ∈ keys (UserObject.initFields0 sch) :=
      mem_keys_foldl_update sch.fields [] f (Or.inl hf)
    have h1 := applySetattrs_keys_superset defaults
      { schema := sch, fields := UserObject.initFields0 sch, attrs := [],
        version := version?.getD sch.version } f h0
    have h2 := applyRawValues_keys_superset _ fv? f h1
    have h3 : f ∈ keys (dictUpdates (UserObject.applyRawValues
        (UserObject.applySetattrs
          { schema := sch, fields := UserObject.initFields0 sch, attrs := [],
            version := version?.getD sch.version } defaults) fv?).fields args) :=
      keys_dictUpdates_superset _ args f h2
    have hsch : ({ UserObject.applyRawValues (UserObject.applySetattrs
        { schema := sch, fields := UserObject.initFields0 sch, attrs := [],
          version := version?.getD sch.version } defaults) fv? with
        fields := dictUpdates (UserObject.applyRawValues
          (UserObject.applySetattrs
            { schema := sch, fields := UserObject.initFields0 sch, attrs := [],
              version := version?.getD sch.version } defaults) fv?).fields
          args } : UserObject).schema.fields = sch.fields := by
      show (UserObject.applyRawValues (UserObject.applySetattrs _ defaults)
        fv?).schema.fields = sch.fields
      rw [applyRawValues_schema, applySetattrs_schema]
    have h4 : f ∈ keys (UserObject.init sch defaults fv? args version?).fields := by
      rw [init_eq_full]
      exact nameFix_keys_superset _ f (by rw [hsch]; exact hf) h3
    rw [UserObject.getattr]
    rcases ha : dictGet? (UserObject.init sch defaults fv? args version?).attrs f
      with _ | w
    · rcases hfld : dictGet? (UserObject.init sch defaults fv? args
          version?).fields f with _ | w
      · exact absurd h4 ((dictGet?_eq_none_iff _ _).mp hfld)
      · exact ⟨w, rfl⟩
    · exact ⟨w, rfl⟩
  · intro i hi hcov
    have hdf : UserObject.definedFields sch vs.length = sch.fields := by
      rw [UserObject.definedFields,
        show vs.length - sch.fields.length = 0 from by omega]
      simp
    have hne : ∀ q ∈ (UserObject.definedFields sch vs.length).zip vs,
        q.1 ≠ sch.fields.get ⟨i, hi⟩ := by
      intro q hq hqf
      rw [hdf, zip_eq_zip_take] at hq
      have hq1 : q.1 ∈ sch.fields.take vs.length := (List.of_mem_zip hq).1
      rw [List.mem_take_iff_getElem] at hq1
      obtain ⟨j, hj, hgi⟩ := hq1
      obtain ⟨hjn, hjk⟩ := Nat.lt_min.mp hj
      rw [hqf] at hgi
      have hji : j = i := (List.Nodup.getElem_inj_iff hnd).mp (by simpa using hgi)
      omega
    have ho1sch : (UserObject.applySetattrs
        { schema := sch, fields := UserObject.initFields0 sch, attrs := [],
          version := version?.getD sch.version } defaults).schema = sch :=
      applySetattrs_schema defaults _
    have hstep2 : dictGet? (UserObject.applyRawValues (UserObject.applySetattrs
        { schema := sch, fields := UserObject.initFields0 sch, attrs := [],
          version := version?.getD sch.version } defaults) (some vs)).fields
          (sch.fields.get ⟨i, hi⟩)
        = dictGet? (UserObject.applySetattrs
          { schema := sch, fields := UserObject.initFields0 sch, attrs := [],
            version := version?.getD sch.version } defaults).fields
          (sch.fields.get ⟨i, hi⟩) := by
      cases vs with
      | nil => rfl
      | cons v vs' =>
        show dictGet? (dictUpdates (UserObject.applySetattrs _ defaults).fields
          ((UserObject.definedFields (UserObject.applySetattrs _ defaults).schema
            (v :: vs').length).zip (v :: vs'))) _ = _
        rw [ho1sch]
        exact dictGet?_dictUpdates_not_mem _ _ _ hne
    have hfmem : sch.fields.get ⟨i, hi⟩ ∈ sch.fields := List.get_mem _ _ _
    have hname_or : ∀ (o : UserObject), o.schema.fields = sch.fields →
        (sch.fields.get ⟨i, hi⟩ ≠ "name" ∨ "name" ∈ o.schema.fields) := by
      intro o ho
      by_cases hfn : sch.fields.get ⟨i, hi⟩ = "name"
      · right
        rw [ho, ← hfn]
        exact hfmem
      · left
        exact hfn
    rw [init_no_args, init_no_args,
      nameFix_dictGet? _ _ (hname_or _ (by
        rw [applyRawValues_schema, ho1sch])),
      nameFix_dictGet? _ _ (hname_or _ (by
        rw [applyRawValues_schema, ho1sch]))]
    exact hstep2

/-- Witness for C10: a two-field schema, a raw list covering only one field,
plus a named override; `Get` succeeds on both declared names and the
uncovered field keeps its default value. -/
theorem C10_declared_fields_present_witness :
    (["name", "form"] : List String).Nodup ∧
    (∀ f ∈ (["name", "form"] : List String), ∃ v,
      (UserObject.init ⟨"ImageMedia", ["name", "form"], PyVal.int 4⟩
        [("form", PyVal.int 1)] (some [PyVal.int 7]) [("other", PyVal.int 5)]
        Option.none).getattr f = Except.ok v) ∧
    (∀ (i : Nat) (hi : i < (["name", "form"] : List String).length),
      [PyVal.int 7].length ≤ i →
      dictGet? (UserObject.init ⟨"ImageMedia", ["name", "form"], PyVal.int 4⟩
          [("form", PyVal.int 1)] (some [PyVal.int 7]) [] Option.none).fields
          ((["name", "form"] : List String).get ⟨i, hi⟩)
        = dictGet? (UserObject.init ⟨"ImageMedia", ["name", "form"], PyVal.int 4⟩
          [("form", PyVal.int 1)] Option.none [] Option.none).fields
          ((["name", "form"] : List String).get ⟨i, hi⟩)) := by
  refine ⟨by decide, ?_, ?_⟩
  · exact (C10_declared_fields_present ⟨"ImageMedia", ["name", "form"], PyVal.int 4⟩
      [("form", PyVal.int 1)] (some [PyVal.int 7]) [("other", PyVal.int 5)]
      [PyVal.int 7] Option.none (by decide)).1
  · exact (C10_declared_fields_present ⟨"ImageMedia", ["name", "form"], PyVal.int 4⟩
      [("form", PyVal.int 1)] (some [PyVal.int 7]) [("other", PyVal.int 5)]
      [PyVal.int 7] Option.none (by decide)).2

/-- **C3.** On an empty catalog, registering plugin A owning command `move`
(no hint) and then plugin B whose block declares match-hint `move` yields
exactly one canonical block carrying both formats' translations; registering
B first fails with the "Couldn't match" error and leaves the catalog
empty. -/
theorem C3_block_merge_order :
    (Kurt.register emptyState
      { name := "scratch14", display_name := "Scratch 1.4", extension := ".sb",
        features := [],
        blocks := [some ⟨Option.none, "move", Option.none⟩] }).2
      = Option.none ∧
    (Kurt.register (Kurt.register emptyState
      { name := "scratch14", display_name := "Scratch 1.4", extension := ".sb",
        features := [],
        blocks := [some ⟨Option.none, "move", Option.none⟩] }).1
      { name := "scratch20", display_name := "Scratch 2.0", extension := ".sb2",
        features := [],
        blocks := [some ⟨Option.none, "forward:", some "move"⟩] }).2
      = Option.none ∧
    ((Kurt.register (Kurt.register emptyState
      { name := "scratch14", display_name := "Scratch 1.4", extension := ".sb",
        features := [],
        blocks := [some ⟨Option.none, "move", Option.none⟩] }).1
      { name := "scratch20", display_name := "Scratch 2.0", extension := ".sb2",
        features := [],
        blocks := [some ⟨Option.none, "forward:", some "move"⟩] }).1.blocks.map
        (fun bt => bt.translations.map (fun t => (t.1, t.2.command))))
      = [[("scratch14", "move"), ("scratch20", "forward:")]] ∧
    (Kurt.register emptyState
      { name := "scratch20", display_name := "Scratch 2.0", extension := ".sb2",
        features := [],
        blocks := [some ⟨Option.none, "forward:", some "move"⟩] }).2
      = some "Couldn't match move" ∧
    (Kurt.register emptyState
      { name := "scratch20", display_name := "Scratch 2.0", extension := ".sb2",
        features := [],
        blocks := [some ⟨Option.none, "forward:", some "move"⟩] }).1.blocks
      = [] := by
  decide

/-- **C4.** Registering a plugin that declares a capability name absent from
the capability table raises before any of its blocks are merged: the
canonical catalog is unchanged (in particular its length). -/
theorem C4_unknown_feature_atomic (st : KurtState) (p : KurtPlugin)
    (hbad : ∃ f ∈ p.features, Feature.get? f = Option.none) :
    (∃ e, (Kurt.register st p).2 = some e) ∧
    (Kurt.register st p).1.blocks = st.blocks ∧
    (Kurt.register st p).1.blocks.length = st.blocks.length := by
  obtain ⟨f, hf, hnone⟩ := hbad
  have hsome : (p.features.find? (fun f => (Feature.get? f).isNone)).isSome := by
    rw [List.find?_isSome]
    exact ⟨f, hf, by simp [hnone]⟩
  rcases hfind : p.features.find? (fun f => (Feature.get? f).isNone) with _ | g
  · rw [hfind] at hsome
    cases hsome
  · refine ⟨⟨"KeyError: " ++ g, ?_⟩, ?_, ?_⟩ <;>
      simp only [Kurt.register, hfind] <;> rfl

/-- Witness for C4: a plugin declaring the misspelled capability
`Vector Imagges` fails to register and leaves a one-block catalog intact. -/
theorem C4_unknown_feature_atomic_witness :
    (∃ f ∈ ["Vector Imagges"], Feature.get? f = Option.none) ∧
    ((∃ e, (Kurt.register
        { plugins := [], blocks := [BlockType.ofTBT ⟨some "scratch14", "move",
          Option.none⟩] }
        { name := "broken", display_name := "Broken", extension := ".bk",
          features := ["Vector Imagges"],
          blocks := [some ⟨Option.none, "glide", Option.none⟩] }).2 = some e) ∧
      (Kurt.register
        { plugins := [], blocks := [BlockType.ofTBT ⟨some "scratch14", "move",
          Option.none⟩] }
        { name := "broken", display_name := "Broken", extension := ".bk",
          features := ["Vector Imagges"],
          blocks := [some ⟨Option.none, "glide", Option.none⟩] }).1.blocks
        = [BlockType.ofTBT ⟨some "scratch14", "move", Option.none⟩] ∧
      (Kurt.register
        { plugins := [], blocks := [BlockType.ofTBT ⟨some "scratch14", "move",
          Option.none⟩] }
        { name := "broken", display_name := "Broken", extension := ".bk",
          features := ["Vector Imagges"],
          blocks := [some ⟨Option.none, "glide", Option.none⟩] }).1.blocks.length
        = 1) := by
  refine ⟨⟨"Vector Imagges", by decide⟩, ?_⟩
  exact C4_unknown_feature_atomic
    { plugins := [], blocks := [BlockType.ofTBT ⟨some "scratch14", "move",
      Option.none⟩] }
    { name := "broken", display_name := "Broken", extension := ".bk",
      features := ["Vector Imagges"],
      blocks := [some ⟨Option.none, "glide", Option.none⟩] }
    ⟨"Vector Imagges", by decide⟩

/-- `find?` returns exactly the first element satisfying the predicate. -/
theorem find?_eq_some_first {α : Type} (l : List α) (p : α → Bool) (b : α) :
    l.find? p = some b ↔
      p b = true ∧ ∃ l1 l2, l = l1 ++ b :: l2 ∧ ∀ a ∈ l1, p a = false := by
  induction l with
  | nil =>
    simp only [List.find?_nil]
    constructor
    · intro h
      cases h
    · rintro ⟨-, l1, l2, heq, -⟩
      exact absurd heq (by simp)
  | cons a l ih =>
    cases hp : p a
    · rw [List.find?_cons_of_neg _ (by simp [hp]), ih]
      constructor
      · rintro ⟨hb, l1, l2, rfl, hall⟩
        exact ⟨hb, a :: l1, l2, rfl, fun x hx => by
          rcases List.mem_cons.mp hx with rfl | hx
          · exact hp
          · exact hall x hx⟩
      · rintro ⟨hb, l1, l2, heq, hall⟩
        cases l1 with
        | nil =>
          simp only [List.nil_append, List.cons.injEq] at heq
          rw [heq.1] at hp
          rw [hp] at hb
          cases hb
        | cons a' l1 =>
          simp only [List.cons_append, List.cons.injEq] at heq
          exact ⟨hb, l1, l2, heq.2, fun x hx =>
            hall x (List.mem_cons_of_mem _ hx)⟩
    · rw [List.find?_cons_of_pos _ (by simp [hp])]
      constructor
      · intro h
        injection h with h
        subst h
        exact ⟨hp, [], l, rfl, by simp⟩
      · rintro ⟨hb, l1, l2, heq, hall⟩
        cases l1 with
        | nil =>
          simp only [List.nil_append, List.cons.injEq] at heq
          rw [heq.1]
        | cons a' l1 =>
          simp only [List.cons_append, List.cons.injEq] at heq
          have := hall a' (List.mem_cons_self _ _)
          rw [← heq.1] at this
          rw [this] at hp
          cases hp

theorem all_criteria_iff (p : KurtPlugin) (crits : List (PluginAttr × String)) :
    (crits.all (fun q => p.getAttr q.1 == q.2) = true) ↔ satisfiesCriteria p crits := by
  rw [List.all_eq_true]
  constructor
  · intro h q hq
    simpa using h q hq
  · intro h q hq
    simpa using h q hq

theorem get_plugin_ok_iff (st : KurtState) (name? : Option String)
    (kwargs : List (PluginAttr × String)) (pl : KurtPlugin) :
    Kurt.get_plugin st name? kwargs = Except.ok pl ↔
      processKwargs name? kwargs ≠ [] ∧
      satisfiesCriteria pl (processKwargs name? kwargs) ∧
      ∃ pre post, st.plugins.map Prod.snd = pre ++ pl :: post ∧
        ∀ q ∈ pre, ¬ satisfiesCriteria q (processKwargs name? kwargs) := by
  by_cases hemp : (processKwargs name? kwargs).isEmpty
  · have hnil : processKwargs name? kwargs = [] := List.isEmpty_iff.mp hemp
    have hlhs : Kurt.get_plugin st name? kwargs = Except.error "No arguments" := by
      simp only [Kurt.get_plugin, hemp, if_true]
    rw [hlhs]
    constructor
    · intro h
      cases h
    · rintro ⟨hne, -⟩
      exact absurd hnil hne
  · have hnil : processKwargs name? kwargs ≠ [] := by
      simpa [List.isEmpty_iff] using hemp
    rcases hfind : (st.plugins.map Prod.snd).find?
        (fun p => (processKwargs name? kwargs).all
          (fun q => p.getAttr q.1 == q.2)) with _ | q
    · have hlhs : Kurt.get_plugin st name? kwargs
          = Except.error "Unknown format" := by
        simp only [Kurt.get_plugin, if_neg hemp, hfind]
      rw [hlhs]
      rw [List.find?_eq_none] at hfind
      constructor
      · intro h
        cases h
      · rintro ⟨-, hsatp, pre, post, heq, -⟩
        have hmem : pl ∈ st.plugins.map Prod.snd := by
          rw [heq]
          exact List.mem_append_right _ (List.mem_cons_self _ _)
        exact absurd ((all_criteria_iff pl _).mpr hsatp)
          (by simpa using hfind pl hmem)
    · have hlhs : Kurt.get_plugin st name? kwargs = Except.ok q := by
        simp only [Kurt.get_plugin, if_neg hemp, hfind]
      rw [hlhs]
      obtain ⟨hsatq, pre', post', heq', hall'⟩ := (find?_eq_some_first _ _ _).mp hfind
      constructor
      · intro h
        injection h with h
        subst h
        exact ⟨hnil, (all_criteria_iff _ _).mp hsatq, pre', post', heq',
          fun x hx hc => by
            have hfx := hall' x hx
            rw [(all_criteria_iff x _).mpr hc] at hfx
            cases hfx⟩
      · rintro ⟨-, hsatp, pre, post, heq, hall⟩
        have hfind2 : (st.plugins.map Prod.snd).find?
            (fun p => (processKwargs name? kwargs).all
              (fun r => p.getAttr r.1 == r.2)) = some pl := by
          rw [find?_eq_some_first]
          refine ⟨(all_criteria_iff pl _).mpr hsatp, pre, post, heq,
            fun x hx => ?_⟩
          rcases hb : (processKwargs name? kwargs).all
              (fun r => x.getAttr r.1 == r.2) with _ | _
          · rfl
          · exact absurd ((all_criteria_iff x _).mp hb) (hall x hx)
        rw [hfind] at hfind2
        injection hfind2 with h
        rw [h]

/-- **C8 counterexample.** A registered plugin whose stored extension
contains an uppercase letter is not matched by the query `.sb`, although
`.sb` differs from the stored `.SB` only in letter case: `get_plugin`
lowercases the query side only, so the claimed case-insensitive matching
fails. -/
theorem C8_extension_case_counterexample :
    pyLower ".sb" = pyLower ".SB" ∧ (".sb" : String) ≠ ".SB" ∧
    Kurt.get_plugin
      { plugins := [("weird",
          { name := "weird", display_name := "Weird", extension := ".SB",
            features := [], blocks := [] })],
        blocks := [] }
      Option.none [(PluginAttr.extension, ".sb")]
      = Except.error "Unknown format" := by
  decide

/-- **C8 (amended).** For queries that are not an already-resolved plugin:
with no criteria (no truthy name, empty kwargs) `get_plugin` fails with "No
arguments"; otherwise it returns exactly the first plugin in registration
order all of whose queried attributes equal the processed criteria, and
fails with "Unknown format" when none does — where the `extension` criterion
is lowercased on the query side only, so an extension query matches exactly
the plugins whose stored extension equals the lowercased query (genuinely
case-insensitive only for plugins whose stored extension is lowercase). -/
theorem C8_get_plugin_first_match (st : KurtState) (name? : Option String)
    (kwargs : List (PluginAttr × String)) :
    (processKwargs name? kwargs = [] →
      Kurt.get_plugin st name? kwargs = Except.error "No arguments") ∧
    (∀ pl, Kurt.get_plugin st name? kwargs = Except.ok pl ↔
      processKwargs name? kwargs ≠ [] ∧
      satisfiesCriteria pl (processKwargs name? kwargs) ∧
      ∃ pre post, st.plugins.map Prod.snd = pre ++ pl :: post ∧
        ∀ q ∈ pre, ¬ satisfiesCriteria q (processKwargs name? kwargs)) ∧
    (processKwargs name? kwargs ≠ [] →
      (∀ p ∈ st.plugins.map Prod.snd,
        ¬ satisfiesCriteria p (processKwargs name? kwargs)) →
      Kurt.get_plugin st name? kwargs = Except.error "Unknown format") ∧
    (∀ v pl, Kurt.get_plugin st Option.none [(PluginAttr.extension, v)]
        = Except.ok pl ↔
      pl.extension = pyLower v ∧
      ∃ pre post, st.plugins.map Prod.snd = pre ++ pl :: post ∧
        ∀ q ∈ pre, q.extension ≠ pyLower v) := by
  have hsat : ∀ (v : String) (q : KurtPlugin),
      satisfiesCriteria q [(PluginAttr.extension, pyLower v)]
        ↔ q.extension = pyLower v := by
    intro v q
    constructor
    · intro h
      exact h (PluginAttr.extension, pyLower v) (List.mem_singleton_self _)
    · intro h r hr
      rw [List.mem_singleton] at hr
      subst hr
      exact h
  refine ⟨?_, get_plugin_ok_iff st name? kwargs, ?_, ?_⟩
  · intro h
    have hemp : (processKwargs name? kwargs).isEmpty = true := by
      rw [h]
      rfl
    simp only [Kurt.get_plugin, hemp, if_true]
  · intro h1 h2
    have hemp : ¬ (processKwargs name? kwargs).isEmpty := by
      simpa [List.isEmpty_iff] using h1
    have hfind : (st.plugins.map Prod.snd).find?
        (fun p => (processKwargs name? kwargs).all
          (fun q => p.getAttr q.1 == q.2)) = Option.none :=
      List.find?_eq_none.mpr (fun p hp hb =>
        h2 p hp ((all_criteria_iff p _).mp hb))
    simp only [Kurt.get_plugin, if_neg hemp, hfind]
  · intro v pl
    have hproc : processKwargs Option.none [(PluginAttr.extension, v)]
        = [(PluginAttr.extension, pyLower v)] := rfl
    rw [get_plugin_ok_iff st Option.none [(PluginAttr.extension, v)] pl, hproc]
    constructor
    · rintro ⟨-, hs, pre, post, heq, hall⟩
      exact ⟨(hsat v pl).mp hs, pre, post, heq,
        fun q hq hext => hall q hq ((hsat v q).mpr hext)⟩
    · rintro ⟨hext, pre, post, heq, hall⟩
      exact ⟨by simp, (hsat v pl).mpr hext, pre, post, heq,
        fun q hq hc => hall q hq ((hsat v q).mp hc)⟩

/-- Witness for C8 (amended): on a two-plugin registry, an uppercase-cased
query for the lowercase-stored extension `.sb` resolves to the first
matching plugin. -/
theorem C8_get_plugin_first_match_witness :
    Kurt.get_plugin
      { plugins := [
          ("scratch14",
            { name := "scratch14", display_name := "Scratch 1.4",
              extension := ".sb", features := [], blocks := [] }),
          ("scratch20",
            { name := "scratch20", display_name := "Scratch 2.0",
              extension := ".sb2", features := [], blocks := [] })],
        blocks := [] }
      Option.none [(PluginAttr.extension, ".SB")]
      = Except.ok
        { name := "scratch14", display_name := "Scratch 1.4",
          extension := ".sb", features := [], blocks := [] } := by
  have h := (C8_get_plugin_first_match
    { plugins := [
        ("scratch14",
          { name := "scratch14", display_name := "Scratch 1.4",
            extension := ".sb", features := [], blocks := [] }),
        ("scratch20",
          { name := "scratch20", display_name := "Scratch 2.0",
            extension := ".sb2", features := [], blocks := [] })],
      blocks := [] }
    Option.none [(PluginAttr.extension, ".SB")]).2.2.2 ".SB"
    { name := "scratch14", display_name := "Scratch 1.4",
      extension := ".sb", features := [], blocks := [] }
  refine h.mpr ⟨by decide, [],
    [{ name := "scratch20", display_name := "Scratch 2.0",
       extension := ".sb2", features := [], blocks := [] }], by decide, by simp⟩

theorem modifyAt_get? {α : Type} (l : List α) (i j : Nat) (f : α → α) :
    (modifyAt l i f).get? j = if i = j then (l.get? j).map f else l.get? j := by
  induction l generalizing i j with
  | nil => simp [modifyAt]
  | cons x xs ih =>
    cases i with
    | zero =>
      cases j with
      | zero => simp [modifyAt]
      | succ j => simp [modifyAt]
    | succ i =>
      cases j with
      | zero => simp [modifyAt]
      | succ j => simpa [modifyAt] using ih i j

theorem scriptables_replace (p : Project) (q : Nat × Nat) (img : Image) :
    (p.replaceImage q img).scriptables
      = modifyAt p.scriptables q.1 (fun s => s.setCostumeImage q.2 img) := by
  rcases q with ⟨si, ci⟩
  cases si <;> rfl

theorem costumeAt?_replace_ne (p : Project) (q q' : Nat × Nat) (img : Image)
    (h : q ≠ q') : costumeAt? (p.replaceImage q img) q' = costumeAt? p q' := by
  unfold costumeAt? Project.scriptableAt?
  rw [scriptables_replace, modifyAt_get?]
  by_cases hsi : q.1 = q'.1
  · rw [if_pos hsi]
    rcases hget : p.scriptables.get? q'.1 with _ | s
    · rfl
    · show (s.setCostumeImage q.2 img).costumes.get? q'.2
        = s.costumes.get? q'.2
      show (modifyAt s.costumes q.2 (fun c => { c with image := img })).get? q'.2
        = s.costumes.get? q'.2
      rw [modifyAt_get?, if_neg]
      intro hci
      exact h (Prod.ext hsi hci)
  · rw [if_neg hsi]

theorem scriptableAt?_name_replace (p : Project) (q : Nat × Nat) (img : Image)
    (si : Nat) :
    ((p.replaceImage q img).scriptableAt? si).map Scriptable.name
      = (p.scriptableAt? si).map Scriptable.name := by
  unfold Project.scriptableAt?
  rw [scriptables_replace, modifyAt_get?]
  by_cases hsi : q.1 = si
  · rw [if_pos hsi]
    rcases p.scriptables.get? si with _ | s <;> rfl
  · rw [if_neg hsi]

theorem costumeAt?_name_replace (p : Project) (q q' : Nat × Nat) (img : Image) :
    (costumeAt? (p.replaceImage q img) q').map Costume.name
      = (costumeAt? p q').map Costume.name := by
  unfold costumeAt? Project.scriptableAt?
  rw [scriptables_replace, modifyAt_get?]
  by_cases hsi : q.1 = q'.1
  · rw [if_pos hsi]
    rcases p.scriptables.get? q'.1 with _ | s
    · rfl
    · show ((modifyAt s.costumes q.2 (fun c => { c with image := img })).get?
          q'.2).map Costume.name = (s.costumes.get? q'.2).map Costume.name
      rw [modifyAt_get?]
      by_cases hci : q.2 = q'.2
      · rw [if_pos hci]
        rcases s.costumes.get? q'.2 with _ | c <;> rfl
      · rw [if_neg hci]
  · rw [if_neg hsi]

theorem labelOf_replace (p : Project) (q q' : Nat × Nat) (img : Image) :
    labelOf (p.replaceImage q img) q' = labelOf p q' := by
  unfold labelOf
  rw [scriptableAt?_name_replace, costumeAt?_name_replace]

theorem isSVGAt_replace_ne (p : Project) (q q' : Nat × Nat) (img : Image)
    (h : q ≠ q') : isSVGAt (p.replaceImage q img) q' = isSVGAt p q' := by
  unfold isSVGAt
  rw [costumeAt?_replace_ne p q q' img h]

theorem vectorRunAux_pend (ps : List (Nat × Nat)) (p : Project)
    (pend : Option (Nat × Nat)) :
    vectorRunAux ps p pend = vectorRunAux ps (applyPend p pend) Option.none := by
  cases ps <;> rfl

theorem vectorSpecYields_length (p : Project) (qs : List (Nat × Nat)) :
    (vectorSpecYields p qs).length = qs.length := by
  induction qs generalizing p with
  | nil => rfl
  | cons q qs ih => simpa [vectorSpecYields] using ih (p.replaceImage q PLACEHOLDER)

theorem vectorSpecYields_get? (p : Project) (qs : List (Nat × Nat)) (j : Nat)
    (hj : j < qs.length) :
    (vectorSpecYields p qs).get? j
      = some (replacePositions p (qs.take j), labelOf p (qs.get ⟨j, hj⟩)) := by
  induction qs generalizing p j with
  | nil => exact absurd hj (by simp)
  | cons q rest ih =>
    cases j with
    | zero => rfl
    | succ j =>
      have hj' : j < rest.length := Nat.lt_of_succ_lt_succ hj
      show (vectorSpecYields (p.replaceImage q PLACEHOLDER) rest).get? j = _
      rw [ih (p.replaceImage q PLACEHOLDER) j hj']
      rw [labelOf_replace]
      rfl

theorem positionsFrom_fst_ge (si : Nat) (ss : List Scriptable) :
    ∀ q ∈ positionsFrom si ss, si ≤ q.1 := by
  induction ss generalizing si with
  | nil =>
    intro q hq
    exact absurd hq (by simp [positionsFrom])
  | cons s ss ih =>
    intro q hq
    rw [positionsFrom] at hq
    rcases List.mem_append.mp hq with h | h
    · rcases List.mem_map.mp h with ⟨ci, _, rfl⟩
      exact Nat.le_refl si
    · exact Nat.le_of_succ_le (ih (si + 1) q h)

theorem positionsFrom_pairwise (si : Nat) (ss : List Scriptable) :
    (positionsFrom si ss).Pairwise (fun a b => a ≠ b) := by
  induction ss generalizing si with
  | nil => exact List.Pairwise.nil
  | cons s ss ih =>
    rw [positionsFrom, List.pairwise_append]
    refine ⟨?_, ih (si + 1), ?_⟩
    · rw [List.pairwise_map]
      refine (List.pairwise_lt_range _).imp ?_
      intro a b hab hEq
      exact absurd (congrArg Prod.snd hEq) (Nat.ne_of_lt hab)
    · intro a ha b hb
      rcases List.mem_map.mp ha with ⟨ci, _, rfl⟩
      have hge := positionsFrom_fst_ge (si + 1) ss b hb
      intro hEq
      rw [← hEq] at hge
      exact absurd (show si + 1 ≤ si from hge) (by omega)

theorem vectorRunAux_spec (ps : List (Nat × Nat)) (p : Project)
    (hnd : ps.Pairwise (fun a b => a ≠ b)) :
    vectorRunAux ps p Option.none
      = { yields := vectorSpecYields p (ps.filter (fun q => isSVGAt p q)),
          final := replacePositions p (ps.filter (fun q => isSVGAt p q)) } := by
  induction ps generalizing p with
  | nil => rfl
  | cons q rest ih =>
    have hq : ∀ b ∈ rest, q ≠ b := (List.pairwise_cons.mp hnd).1
    have htl : rest.Pairwise (fun a b => a ≠ b) := (List.pairwise_cons.mp hnd).2
    have hstep : vectorRunAux (q :: rest) p Option.none
        = (match costumeAt? p q with
          | some c =>
            if c.image.format == some "SVG" then
              { yields := (p, labelOf p q)
                  :: (vectorRunAux rest p (some q)).yields,
                final := (vectorRunAux rest p (some q)).final }
            else vectorRunAux rest p Option.none
          | Option.none => vectorRunAux rest p Option.none) := rfl
    rw [hstep]
    rcases hc : costumeAt? p q with _ | c
    · have hsvg : isSVGAt p q = false := by
        show (match costumeAt? p q with
          | some c => c.image.format == some "SVG"
          | Option.none => false) = false
        rw [hc]
      rw [List.filter_cons_of_neg (by simp [hsvg])]
      exact ih p htl
    · show (if (c.image.format == some "SVG") = true then
            { yields := (p, labelOf p q)
                :: (vectorRunAux rest p (some q)).yields,
              final := (vectorRunAux rest p (some q)).final }
          else vectorRunAux rest p Option.none) = _
      cases hfmt : c.image.format == some "SVG" with
      | false =>
        have hsvg : isSVGAt p q = false := by
          show (match costumeAt? p q with
            | some c => c.image.format == some "SVG"
            | Option.none => false) = false
          rw [hc]
          exact hfmt
        rw [List.filter_cons_of_neg (by simp [hsvg])]
        rw [if_neg (by simp)]
        exact ih p htl
      | true =>
        have hsvg : isSVGAt p q = true := by
          show (match costumeAt? p q with
            | some c => c.image.format == some "SVG"
            | Option.none => false) = true
          rw [hc]
          exact hfmt
        rw [List.filter_cons_of_pos (by simp [hsvg])]
        rw [if_pos rfl]
        rw [vectorRunAux_pend rest p (some q)]
        have happ : applyPend p (some q) = p.replaceImage q PLACEHOLDER := rfl
        rw [happ]
        rw [ih (p.replaceImage q PLACEHOLDER) htl]
        have hfilter :
            rest.filter (fun x => isSVGAt (p.replaceImage q PLACEHOLDER) x)
              = rest.filter (fun x => isSVGAt p x) := by
          apply List.filter_congr
          intro x hx
          rw [isSVGAt_replace_ne p q x PLACEHOLDER (hq x hx)]
        rw [hfilter]
        rfl

theorem map_fst_var_labels (p : Project) (l : Store) (pre : String) :
    ((l.map (fun pr => (p, pre ++ pr.1))).map Prod.fst)
      = List.replicate l.length p := by
  induction l with
  | nil => rfl
  | cons x xs ih => simp [ih, List.replicate_succ]

/-- **C5.** On a project whose stage has no SVG costumes and whose single
sprite has a single SVG costume, draining the Vector Images workaround
yields exactly one label `"<sprite> - <costume>"`, and the resulting project
is the same project with that costume's image replaced by the 32×32 red
placeholder raster; draining the workaround again on the result yields no
labels and changes nothing. -/
theorem C5_vector_degrade (sn spn cn : String) (img : Image)
    (scs : List Costume) (sv sl v2 l2 gv gl : Store)
    (hsvg : img.format = some "SVG")
    (hstage : ∀ c ∈ scs, c.image.format ≠ some "SVG") :
    (vectorWorkaroundRun ⟨⟨sn, scs, sv, sl⟩, [⟨spn, [⟨cn, img⟩], v2, l2⟩],
        gv, gl⟩).yields.map Prod.snd = [spn ++ " - " ++ cn] ∧
    (vectorWorkaroundRun ⟨⟨sn, scs, sv, sl⟩, [⟨spn, [⟨cn, img⟩], v2, l2⟩],
        gv, gl⟩).final
      = ⟨⟨sn, scs, sv, sl⟩, [⟨spn, [⟨cn, PLACEHOLDER⟩], v2, l2⟩], gv, gl⟩ ∧
    (vectorWorkaroundRun ⟨⟨sn, scs, sv, sl⟩,
        [⟨spn, [⟨cn, PLACEHOLDER⟩], v2, l2⟩], gv, gl⟩).yields = [] ∧
    (vectorWorkaroundRun ⟨⟨sn, scs, sv, sl⟩,
        [⟨spn, [⟨cn, PLACEHOLDER⟩], v2, l2⟩], gv, gl⟩).final
      = ⟨⟨sn, scs, sv, sl⟩, [⟨spn, [⟨cn, PLACEHOLDER⟩], v2, l2⟩], gv, gl⟩ := by
  have hstageF : ∀ (P : Project), P.stage.costumes = scs →
      (List.map (fun ci => ((0 : Nat), ci)) (List.range scs.length)).filter
        (fun x => isSVGAt P x) = [] := by
    intro P hPs
    rw [List.filter_eq_nil_iff]
    intro x hx
    rcases List.mem_map.mp hx with ⟨ci, _, rfl⟩
    have hcost : costumeAt? P (0, ci) = scs.get? ci := by
      show (P.scriptables.get? 0).bind (fun s => s.costumes.get? ci)
        = scs.get? ci
      show P.stage.costumes.get? ci = scs.get? ci
      rw [hPs]
    show ¬ ((match costumeAt? P (0, ci) with
      | some c => c.image.format == some "SVG"
      | Option.none => false) = true)
    rw [hcost]
    rcases hget : scs.get? ci with _ | c
    · simp
    · have hne := hstage c (List.get?_mem hget)
      simp [hne]
  constructor
  · have hPW := positionsFrom_pairwise 0
      (Project.scriptables ⟨⟨sn, scs, sv, sl⟩, [⟨spn, [⟨cn, img⟩], v2, l2⟩],
        gv, gl⟩)
    have hrun := vectorRunAux_spec
      (allPositions ⟨⟨sn, scs, sv, sl⟩, [⟨spn, [⟨cn, img⟩], v2, l2⟩], gv, gl⟩)
      ⟨⟨sn, scs, sv, sl⟩, [⟨spn, [⟨cn, img⟩], v2, l2⟩], gv, gl⟩ hPW
    have hpos : allPositions ⟨⟨sn, scs, sv, sl⟩,
        [⟨spn, [⟨cn, img⟩], v2, l2⟩], gv, gl⟩
        = List.map (fun ci => ((0 : Nat), ci)) (List.range scs.length)
          ++ [(1, 0)] := rfl
    rw [hpos, List.filter_append, hstageF _ rfl] at hrun
    have hsvg10 : (List.filter
        (fun x => isSVGAt ⟨⟨sn, scs, sv, sl⟩,
          [⟨spn, [⟨cn, img⟩], v2, l2⟩], gv, gl⟩ x) [(1, 0)])
        = [(1, 0)] := by
      have h1 : isSVGAt ⟨⟨sn, scs, sv, sl⟩,
          [⟨spn, [⟨cn, img⟩], v2, l2⟩], gv, gl⟩ (1, 0) = true := by
        show (img.format == some "SVG") = true
        rw [hsvg]
        simp
      simp [List.filter, h1]
    rw [hsvg10] at hrun
    show (vectorRunAux _ _ Option.none).yields.map Prod.snd = _
    rw [hpos, hrun]
    rfl
  constructor
  · have hPW := positionsFrom_pairwise 0
      (Project.scriptables ⟨⟨sn, scs, sv, sl⟩, [⟨spn, [⟨cn, img⟩], v2, l2⟩],
        gv, gl⟩)
    have hrun := vectorRunAux_spec
      (allPositions ⟨⟨sn, scs, sv, sl⟩, [⟨spn, [⟨cn, img⟩], v2, l2⟩], gv, gl⟩)
      ⟨⟨sn, scs, sv, sl⟩, [⟨spn, [⟨cn, img⟩], v2, l2⟩], gv, gl⟩ hPW
    have hpos : allPositions ⟨⟨sn, scs, sv, sl⟩,
        [⟨spn, [⟨cn, img⟩], v2, l2⟩], gv, gl⟩
        = List.map (fun ci => ((0 : Nat), ci)) (List.range scs.length)
          ++ [(1, 0)] := rfl
    rw [hpos, List.filter_append, hstageF _ rfl] at hrun
    have hsvg10 : (List.filter
        (fun x => isSVGAt ⟨⟨sn, scs, sv, sl⟩,
          [⟨spn, [⟨cn, img⟩], v2, l2⟩], gv, gl⟩ x) [(1, 0)])
        = [(1, 0)] := by
      have h1 : isSVGAt ⟨⟨sn, scs, sv, sl⟩,
          [⟨spn, [⟨cn, img⟩], v2, l2⟩], gv, gl⟩ (1, 0) = true := by
        show (img.format == some "SVG") = true
        rw [hsvg]
        simp
      simp [List.filter, h1]
    rw [hsvg10] at hrun
    show (vectorRunAux _ _ Option.none).final = _
    rw [hpos, hrun]
    rfl
  · have hPW := positionsFrom_pairwise 0
      (Project.scriptables ⟨⟨sn, scs, sv, sl⟩,
        [⟨spn, [⟨cn, PLACEHOLDER⟩], v2, l2⟩], gv, gl⟩)
    have hrun := vectorRunAux_spec
      (allPositions ⟨⟨sn, scs, sv, sl⟩, [⟨spn, [⟨cn, PLACEHOLDER⟩], v2, l2⟩],
        gv, gl⟩)
      ⟨⟨sn, scs, sv, sl⟩, [⟨spn, [⟨cn, PLACEHOLDER⟩], v2, l2⟩], gv, gl⟩ hPW
    have hpos : allPositions ⟨⟨sn, scs, sv, sl⟩,
        [⟨spn, [⟨cn, PLACEHOLDER⟩], v2, l2⟩], gv, gl⟩
        = List.map (fun ci => ((0 : Nat), ci)) (List.range scs.length)
          ++ [(1, 0)] := rfl
    rw [hpos, List.filter_append, hstageF _ rfl] at hrun
    have hsvg10 : (List.filter
        (fun x => isSVGAt ⟨⟨sn, scs, sv, sl⟩,
          [⟨spn, [⟨cn, PLACEHOLDER⟩], v2, l2⟩], gv, gl⟩ x) [(1, 0)])
        = [] := by
      have h1 : isSVGAt ⟨⟨sn, scs, sv, sl⟩,
          [⟨spn, [⟨cn, PLACEHOLDER⟩], v2, l2⟩], gv, gl⟩ (1, 0) = false := rfl
      simp [List.filter, h1]
    rw [hsvg10] at hrun
    constructor
    · show (vectorRunAux _ _ Option.none).yields = []
      rw [hpos, hrun]
      rfl
    · show (vectorRunAux _ _ Option.none).final = _
      rw [hpos, hrun]
      rfl

/-- Witness for C5: a stage with one raster background and a sprite with one
SVG costume. -/
theorem C5_vector_degrade_witness :
    (vectorWorkaroundRun ⟨⟨"Stage", [⟨"bg", ⟨Option.none, 4, 4, Option.none⟩⟩],
        [], []⟩, [⟨"Sprite1", [⟨"costume1", ⟨some "SVG", 10, 10,
        Option.none⟩⟩], [], []⟩], [], []⟩).yields.map Prod.snd
      = ["Sprite1" ++ " - " ++ "costume1"] ∧
    (vectorWorkaroundRun ⟨⟨"Stage", [⟨"bg", ⟨Option.none, 4, 4, Option.none⟩⟩],
        [], []⟩, [⟨"Sprite1", [⟨"costume1", ⟨some "SVG", 10, 10,
        Option.none⟩⟩], [], []⟩], [], []⟩).final
      = ⟨⟨"Stage", [⟨"bg", ⟨Option.none, 4, 4, Option.none⟩⟩], [], []⟩,
        [⟨"Sprite1", [⟨"costume1", PLACEHOLDER⟩], [], []⟩], [], []⟩ ∧
    (vectorWorkaroundRun ⟨⟨"Stage", [⟨"bg", ⟨Option.none, 4, 4, Option.none⟩⟩],
        [], []⟩, [⟨"Sprite1", [⟨"costume1", PLACEHOLDER⟩], [], []⟩], [],
        []⟩).yields = [] ∧
    (vectorWorkaroundRun ⟨⟨"Stage", [⟨"bg", ⟨Option.none, 4, 4, Option.none⟩⟩],
        [], []⟩, [⟨"Sprite1", [⟨"costume1", PLACEHOLDER⟩], [], []⟩], [],
        []⟩).final
      = ⟨⟨"Stage", [⟨"bg", ⟨Option.none, 4, 4, Option.none⟩⟩], [], []⟩,
        [⟨"Sprite1", [⟨"costume1", PLACEHOLDER⟩], [], []⟩], [], []⟩ :=
  C5_vector_degrade "Stage" "Sprite1" "costume1"
    ⟨some "SVG", 10, 10, Option.none⟩
    [⟨"bg", ⟨Option.none, 4, 4, Option.none⟩⟩] [] [] [] [] [] []
    rfl (by intro c hc; simp at hc; rw [hc]; simp)

/-- **C6.** Draining the Stage-specific Variables transform on a project
with stage variables `{a: v}`, no stage lists and empty globals yields
exactly the one label naming the variable, moves the variable to the global
namespace and clears the stage-local namespaces; and a stage variable
colliding with an existing global of a different value overwrites it. -/
theorem C6_variable_hoist (stageName : String) (cs : List Costume)
    (a : String) (v : PyVal) (sprites : List Scriptable) (gl : Store) :
    ((varHoistRun ⟨⟨stageName, cs, [(a, v)], []⟩, sprites, [], gl⟩).yields.map
        Prod.snd = ["variable " ++ a] ∧
      (varHoistRun ⟨⟨stageName, cs, [(a, v)], []⟩, sprites, [],
        gl⟩).final.variables = [(a, v)] ∧
      (varHoistRun ⟨⟨stageName, cs, [(a, v)], []⟩, sprites, [],
        gl⟩).final.stage.variables = [] ∧
      (varHoistRun ⟨⟨stageName, cs, [(a, v)], []⟩, sprites, [],
        gl⟩).final.stage.lists = [] ∧
      (varHoistRun ⟨⟨stageName, cs, [(a, v)], []⟩, sprites, [],
        gl⟩).final.lists = gl) ∧
    (∀ w : PyVal, v ≠ w →
      (varHoistRun ⟨⟨stageName, cs, [(a, v)], []⟩, sprites, [(a, w)],
        gl⟩).final.variables = [(a, v)]) := by
  refine ⟨⟨rfl, rfl, rfl, rfl, rfl⟩, ?_⟩
  intro w hw
  show dictUpdates [(a, w)] [(a, v)] = [(a, v)]
  simp [dictUpdates, dictUpdate]

/-- Witness for C6 at concrete names and values. -/
theorem C6_variable_hoist_witness :
    ((varHoistRun ⟨⟨"Stage", [], [("a", PyVal.int 1)], []⟩, [], [],
        []⟩).yields.map Prod.snd = ["variable a"] ∧
      (varHoistRun ⟨⟨"Stage", [], [("a", PyVal.int 1)], []⟩, [], [],
        []⟩).final.variables = [("a", PyVal.int 1)] ∧
      (varHoistRun ⟨⟨"Stage", [], [("a", PyVal.int 1)], []⟩, [], [],
        []⟩).final.stage.variables = [] ∧
      (varHoistRun ⟨⟨"Stage", [], [("a", PyVal.int 1)], []⟩, [], [],
        []⟩).final.stage.lists = [] ∧
      (varHoistRun ⟨⟨"Stage", [], [("a", PyVal.int 1)], []⟩, [], [],
        []⟩).final.lists = []) ∧
    (∀ w : PyVal, PyVal.int 1 ≠ w →
      (varHoistRun ⟨⟨"Stage", [], [("a", PyVal.int 1)], []⟩, [],
        [("a", w)], []⟩).final.variables = [("a", PyVal.int 1)]) :=
  C6_variable_hoist "Stage" [] "a" (PyVal.int 1) [] []

/-- **C7.** Counterexample to "the entities already reported being the ones
mutated": draining one label of the Vector Images workaround on a
one-SVG-costume project delivers that label paired with the *untouched*
project — the costume just reported is still SVG at that moment, because
the replacement only runs when the generator is resumed; and the
Stage-specific Variables workaround delivers its label with the untouched
project as well, mutating nothing before exhaustion. -/
theorem C7_interleaving_counterexample :
    (vectorWorkaroundRun demoProject).yields
      = [(demoProject, "Sprite1 - costume1")] ∧
    isSVGAt demoProject (1, 0) = true ∧
    (varHoistRun demoProject2).yields = [(demoProject2, "variable a")] ∧
    demoProject2.variables = [] := by
  refine ⟨?_, rfl, ?_, rfl⟩
  · rfl
  · rfl

/-- **C7.** (amended) Labels are emitted lazily, but each mutation lands
only when the generator is resumed after the corresponding yield: the
Vector Images workaround reports one label per SVG costume (in walk order),
and at the j-th delivered label the project equals the initial one with
exactly the first j reported costumes replaced — the entities reported
strictly earlier are the ones already mutated, while the entity being
reported is not yet; draining past the last label performs every
replacement.  The Stage-specific Variables workaround performs no mutation
at any yield: every label is delivered with the untouched initial
project. -/
theorem C7_lazy_reporting (p : Project) :
    ((vectorWorkaroundRun p).yields.length
        = ((allPositions p).filter (fun q => isSVGAt p q)).length) ∧
    (∀ j (hj : j < ((allPositions p).filter (fun q => isSVGAt p q)).length),
      (vectorWorkaroundRun p).yields.get? j
        = some (replacePositions p
              (((allPositions p).filter (fun q => isSVGAt p q)).take j),
            labelOf p
              (((allPositions p).filter (fun q => isSVGAt p q)).get
                ⟨j, hj⟩))) ∧
    ((vectorWorkaroundRun p).final
        = replacePositions p ((allPositions p).filter (fun q => isSVGAt p q))) ∧
    ((varHoistRun p).yields.map Prod.fst
        = List.replicate (varHoistRun p).yields.length p) := by
  have hrun := vectorRunAux_spec (allPositions p) p
    (positionsFrom_pairwise 0 p.scriptables)
  refine ⟨?_, ?_, ?_, ?_⟩
  · show (vectorRunAux (allPositions p) p Option.none).yields.length = _
    rw [hrun]
    exact vectorSpecYields_length p _
  · intro j hj
    show (vectorRunAux (allPositions p) p Option.none).yields.get? j = _
    rw [hrun]
    exact vectorSpecYields_get? p _ j hj
  · show (vectorRunAux (allPositions p) p Option.none).final = _
    rw [hrun]
  · show (List.map Prod.fst
        ((p.stage.variables.map (fun pr => (p, "variable " ++ pr.1)))
          ++ (p.stage.lists.map (fun pr => (p, "list " ++ pr.1))))) = _
    rw [List.map_append, map_fst_var_labels, map_fst_var_labels]
    show _ = List.replicate
        ((p.stage.variables.map (fun pr => (p, "variable " ++ pr.1)))
          ++ (p.stage.lists.map (fun pr => (p, "list " ++ pr.1)))).length p
    rw [List.length_append, List.length_map, List.length_map,
      List.replicate_add]

/-- Witness for the amended C7 at concrete projects, at the first label. -/
theorem C7_lazy_reporting_witness :
    (vectorWorkaroundRun demoProject).yields.get? 0
      = some (replacePositions demoProject
            (((allPositions demoProject).filter
              (fun q => isSVGAt demoProject q)).take 0),
          labelOf demoProject
            (((allPositions demoProject).filter
              (fun q => isSVGAt demoProject q)).get ⟨0, by decide⟩)) ∧
    (vectorWorkaroundRun demoProject).final
      = replacePositions demoProject
          ((allPositions demoProject).filter
            (fun q => isSVGAt demoProject q)) ∧
    (varHoistRun demoProject2).yields.map Prod.fst
      = List.replicate (varHoistRun demoProject2).yields.length demoProject2 :=
  ⟨(C7_lazy_reporting demoProject).2.1 0 (by decide),
   (C7_lazy_reporting demoProject).2.2.1,
   (C7_lazy_reporting demoProject2).2.2.2⟩

end Kurt

